import Mathlib

/-!
Shallow embedding of the core of the KLEE-with-segments symbolic execution
engine (src/lib/Core/Executor.cpp, src/lib/Core/AddressSpace.{h,cpp},
src/lib/Core/MemoryManager.h), used to check the natural-language
specification against the code.

Conventions of the embedding:
* machine integers are `Nat` (overflow plays no role in the verified paths);
* C++ in-place mutation becomes explicit state passing;
* fallible calls (solver queries that can time out) return `Option`;
* the expression algebra (klee/Expr, not part of src/) and the small value
  classes `KValue`/`Cell` (klee/KValue.h, not part of src/) are modelled from
  the spec where noted;
* shared, mutable `ObjectState`s are modelled by a heap (`List ObjectState`)
  addressed by `ObjRef` indices, so that C++ pointer aliasing between the
  copy-on-write address spaces of sibling states is represented faithfully.
-/

namespace KleeCore

/-- Modelled from the spec (the expression algebra of klee/Expr is not under
src/): symbolic bit-vector terms, restricted to the fragment the verified
code paths build.  `const` is a concrete value, `var` an opaque symbolic
leaf, `boundsCheck mo seg off` stands for the solver query expression
`mo->getBoundsCheckPointer(pointer)`. -/
inductive Expr where
  | const : Nat → Expr
  | var : Nat → Expr
  | eq : Expr → Expr → Expr
  | isZeroOf : Expr → Expr
  | and : Expr → Expr → Expr
  | or : Expr → Expr → Expr
  | uge : Expr → Expr → Expr
  | ult : Expr → Expr → Expr
  | boundsCheck : Nat → Expr → Expr → Expr
  deriving DecidableEq, Repr

/-- Whether an expression is a ConstantExpr. -/
def Expr.isConst : Expr → Bool
  | .const _ => true
  | _ => false

/-- Modelled from the spec: every constructor folds constants eagerly.
`Expr::createIsZero` of a constant is the constant test result. -/
def createIsZero : Expr → Expr
  | .const n => .const (if n = 0 then 1 else 0)
  | e => .isZeroOf e

/-- Modelled from the spec: `EqExpr::create` folds two constants. -/
def createEq : Expr → Expr → Expr
  | .const a, .const b => .const (if a = b then 1 else 0)
  | a, b => .eq a b

/-- Modelled from the spec: `AndExpr::create` at width 1 folds constants
eagerly (a true constant operand is dropped, a false one absorbs). -/
def createAnd : Expr → Expr → Expr
  | .const a, b => if a = 0 then .const 0 else b
  | a, .const b => if b = 0 then .const 0 else a
  | a, b => .and a b

/-- Modelled from the spec: `OrExpr::create` at width 1 folds constants
eagerly; in particular `Or(x, 0) = x` as the spec requires. -/
def createOr : Expr → Expr → Expr
  | .const a, b => if a = 0 then b else .const 1
  | a, .const b => if b = 0 then a else .const 1
  | a, b => .or a b

/-- Evaluation of the modelled expression fragment under an assignment to
the symbolic leaves.  Logical connectives are interpreted at width 1 (the
modelled code paths only create them on boolean operands); `boundsCheck`
is solver-internal and never evaluated by the engine, its value here is
immaterial. -/
def Expr.evalN (σ : Nat → Nat) : Expr → Nat
  | .const n => n
  | .var i => σ i
  | .eq a b => if a.evalN σ = b.evalN σ then 1 else 0
  | .isZeroOf a => if a.evalN σ = 0 then 1 else 0
  | .and a b => if a.evalN σ ≠ 0 ∧ b.evalN σ ≠ 0 then 1 else 0
  | .or a b => if a.evalN σ ≠ 0 ∨ b.evalN σ ≠ 0 then 1 else 0
  | .uge a b => if b.evalN σ ≤ a.evalN σ then 1 else 0
  | .ult a b => if a.evalN σ < b.evalN σ then 1 else 0
  | .boundsCheck _ _ _ => 0

/-- Truth of a width-1 expression under an assignment. -/
def Expr.holds (σ : Nat → Nat) (e : Expr) : Prop := e.evalN σ ≠ 0

instance (σ : Nat → Nat) (e : Expr) : Decidable (e.holds σ) := by
  unfold Expr.holds; infer_instance

/-- Modelled from the spec (klee/KValue.h is not under src/): a `KValue` is
the pair `(segment, offset)`; `value`, alias `offset`, carries the scalar
part.  `Cell`s holding locals are `KValue`s. -/
structure KValue where
  pointerSegment : Expr
  value : Expr
  deriving DecidableEq, Repr

/-- `KValue::getSegment`. -/
def KValue.getSegment (v : KValue) : Expr := v.pointerSegment

/-- `KValue::getValue`; `getOffset` is the same accessor. -/
def KValue.getValue (v : KValue) : Expr := v.value

/-- `KValue::getOffset`. -/
def KValue.getOffset (v : KValue) : Expr := v.value

/-- `KValue::isConstant`: both components are constants. -/
def KValue.isConstant (v : KValue) : Bool :=
  v.pointerSegment.isConst && v.value.isConst

/-- Modelled from the spec: the single-expression `KValue` constructor used
for scalars; the segment is the zero constant (segment 0 = pure scalar). -/
def KValue.fromExpr (e : Expr) : KValue := ⟨.const 0, e⟩

/-- Modelled from the spec: a pointer is null when both its segment and its
offset are zero, so `KValue::createIsZero` conjoins the component tests. -/
def KValue.createIsZero (v : KValue) : Expr :=
  createAnd (KleeCore.createIsZero v.pointerSegment) (KleeCore.createIsZero v.value)

/-- Modelled from the spec: `KValue::Eq` compares both components; the
scalar result sits in the value plane (`getValue` of the result). -/
def KValue.eqValue (a b : KValue) : Expr :=
  createAnd (createEq a.pointerSegment b.pointerSegment) (createEq a.value b.value)

/-- Modelled from the spec: bitwise ops act scalar-on-offsets (§3); the
segment the helper produces is irrelevant to the verified path because
`Instruction::And` overwrites it. -/
def KValue.andOp (a b : KValue) : KValue :=
  ⟨.const 0, .and a.value b.value⟩

/-- `Expr::createPointer(0)`: the concrete null value. -/
def nullPointerKValue : KValue := KValue.fromExpr (.const 0)

/-- The error taxonomy of `Executor::TerminateReason`. -/
inductive TerminateReason where
  | abortR | assertR | badVectorAccess | execR | externalR | freeR | leak
  | modelR | overflow | ptr | readOnly | reportError | user | unhandled
  deriving DecidableEq, Repr

/-- Modelled from the spec (Memory.h is not under src/): the immutable
MemoryObject descriptor.  `address` is the concrete base (`getBaseExpr`),
`segment` the allocation's segment id; ordering of the address-space map is
`MemoryObjectLT`, i.e. by `id` (src/lib/Core/AddressSpace.cpp). -/
structure MemoryObject where
  id : Nat
  segment : Nat
  address : Nat
  size : Nat
  isLocal : Bool
  isGlobal : Bool
  isFixed : Bool
  deriving DecidableEq, Repr

/-- `MemoryObject::getBaseExpr`. -/
def MemoryObject.getBaseExpr (mo : MemoryObject) : Expr := .const mo.address

/-- Modelled from the spec: `MemoryObject::getPointer` is the object's own
pointer value `(segment, base)`. -/
def MemoryObject.getPointer (mo : MemoryObject) : KValue :=
  ⟨.const mo.segment, .const mo.address⟩

/-- `MemoryObject::getBoundsCheckPointer(pointer)`: the in-bounds query
expression handed to the solver (built inside the missing Memory.h, so the
term is kept as an uninterpreted node tagged with the object's id). -/
def MemoryObject.getBoundsCheckPointer (mo : MemoryObject) (p : KValue) : Expr :=
  .boundsCheck mo.id p.pointerSegment p.value

/-- The mutable byte store of one MemoryObject.  The two byte planes are
abstracted to one byte list; `copyOnWriteOwner` matches the owning
address space's `cowKey` exactly when the object may be written in place. -/
structure ObjectState where
  copyOnWriteOwner : Nat
  readOnly : Bool
  bytes : List Nat
  deriving DecidableEq, Repr

instance : Inhabited ObjectState := ⟨⟨0, false, []⟩⟩

/-- C++ `ObjectState*`: an index into the modelled heap of object states. -/
abbrev ObjRef := Nat

/-- The pool of `ObjectState`s that the C++ code shares by pointer. -/
abbrev Heap := List ObjectState

/-- Dereference an `ObjectState*`. -/
def Heap.get (h : Heap) (r : ObjRef) : ObjectState := h.getD r default

/-- In-place mutation through an `ObjectState*`. -/
def Heap.set (h : Heap) (r : ObjRef) (os : ObjectState) : Heap := List.set h r os

/-- `new ObjectState(...)`: allocate a fresh object state, returning its
reference. -/
def Heap.alloc (h : Heap) (os : ObjectState) : Heap × ObjRef :=
  (h ++ [os], h.length)

/-- `ObjectPair` (AddressSpace.h): a MemoryObject together with the
reference to its current ObjectState. -/
abbrev ObjectPair := MemoryObject × ObjRef

/-- The ordered `MemoryMap` (an `ImmutableMap` ordered by `MemoryObjectLT`,
i.e. by `id`), as a list sorted strictly by `id`. -/
abbrev MemoryMap := List (MemoryObject × ObjRef)

/-- `ImmutableMap::lookup` keyed by `MemoryObjectLT` (compares ids). -/
def MemoryMap.lookup (m : MemoryMap) (i : Nat) : Option ObjectPair :=
  m.find? (fun p => p.1.id = i)

/-- `ImmutableMap::replace`: insert or overwrite, keeping the `id` order. -/
def MemoryMap.replace (m : MemoryMap) (e : ObjectPair) : MemoryMap :=
  match m with
  | [] => [e]
  | p :: rest =>
    if e.1.id < p.1.id then e :: p :: rest
    else if p.1.id = e.1.id then e :: rest
    else p :: MemoryMap.replace rest e

/-- `ImmutableMap::remove` keyed by id. -/
def MemoryMap.remove (m : MemoryMap) (i : Nat) : MemoryMap :=
  m.filter (fun p => p.1.id ≠ i)

/-- `ImmutableMap::upper_bound`: index of the first entry whose key is
greater than the probe (`end` when there is none). -/
def MemoryMap.upperBound (m : MemoryMap) (i : Nat) : Nat :=
  match m with
  | [] => 0
  | p :: rest => if i < p.1.id then 0 else MemoryMap.upperBound rest i + 1

/-- The `segment → MemoryObject` map, as an association list. -/
abbrev SegmentMap := List (Nat × MemoryObject)

/-- `SegmentMap` lookup. -/
def SegmentMap.lookup (m : SegmentMap) (s : Nat) : Option (Nat × MemoryObject) :=
  m.find? (fun p => p.1 = s)

/-- `SegmentMap` insert-or-overwrite. -/
def SegmentMap.replace (m : SegmentMap) (e : Nat × MemoryObject) : SegmentMap :=
  e :: m.filter (fun p => p.1 ≠ e.1)

/-- `SegmentMap` removal. -/
def SegmentMap.remove (m : SegmentMap) (s : Nat) : SegmentMap :=
  m.filter (fun p => p.1 ≠ s)

/-- The `address → segment` map for external-call interop. -/
abbrev ConcreteAddressMap := List (Nat × Nat)

/-- `ConcreteAddressMap` lookup. -/
def ConcreteAddressMap.lookup (m : ConcreteAddressMap) (a : Nat) : Option (Nat × Nat) :=
  m.find? (fun p => p.1 = a)

/-- The per-state address space (AddressSpace.h). -/
structure AddressSpace where
  cowKey : Nat
  objects : MemoryMap
  segmentMap : SegmentMap
  concreteAddressMap : ConcreteAddressMap
  deriving DecidableEq, Repr

/-- `AddressSpace()` default constructor: `cowKey(1)`. -/
def AddressSpace.init : AddressSpace := ⟨1, [], [], []⟩

/-- The copy constructor `AddressSpace(const AddressSpace &b)`: the clone
takes `++b.cowKey` as its key, so the source's key is bumped too and both
end up with the same, strictly larger key; `objects` and `segmentMap` are
shared, `concreteAddressMap` is default-initialized (it is absent from the
constructor's initializer list).  Returns (updated source, clone). -/
def AddressSpace.clone (b : AddressSpace) : AddressSpace × AddressSpace :=
  let k := b.cowKey + 1
  ({ b with cowKey := k }, ⟨k, b.objects, b.segmentMap, []⟩)

/-- `AddressSpace::bindObject`: set the new state's owner to `cowKey`,
insert into `objects`, and register the segment when nonzero.  The fresh
`ObjectState` is allocated on the heap. -/
def AddressSpace.bindObject (as : AddressSpace) (h : Heap) (mo : MemoryObject)
    (os : ObjectState) : Heap × AddressSpace :=
  let (h2, r) := h.alloc { os with copyOnWriteOwner := as.cowKey }
  (h2,
   { as with
       objects := MemoryMap.replace as.objects (mo, r)
       segmentMap := if mo.segment ≠ 0 then
           SegmentMap.replace as.segmentMap (mo.segment, mo)
         else as.segmentMap })

/-- `AddressSpace::unbindObject`: drop the segment entry (when nonzero) and
the `objects` binding. -/
def AddressSpace.unbindObject (as : AddressSpace) (mo : MemoryObject) : AddressSpace :=
  { as with
      objects := MemoryMap.remove as.objects mo.id
      segmentMap := if mo.segment ≠ 0 then SegmentMap.remove as.segmentMap mo.segment
        else as.segmentMap }

/-- `AddressSpace::findObject`: read-only lookup. -/
def AddressSpace.findObject (as : AddressSpace) (mo : MemoryObject) : Option ObjRef :=
  (MemoryMap.lookup as.objects mo.id).map (fun p => p.2)

/-- `AddressSpace::getWriteable(mo, os)`: return `os` itself when
`cowKey == os->copyOnWriteOwner`; otherwise allocate a copy owned by
`cowKey`, replace the binding for `mo`, and return the copy.  `r` is the
reference currently bound to `mo`. -/
def AddressSpace.getWriteable (as : AddressSpace) (h : Heap) (mo : MemoryObject)
    (r : ObjRef) : Heap × AddressSpace × ObjRef :=
  let os := h.get r
  if as.cowKey = os.copyOnWriteOwner then
    (h, as, r)
  else
    let (h2, r2) := h.alloc { os with copyOnWriteOwner := as.cowKey }
    (h2, { as with objects := MemoryMap.replace as.objects (mo, r2) }, r2)

/-- A store through the writeable object state obtained from
`getWriteable` (the write half of the Load/Store protocol). -/
def AddressSpace.writeObject (as : AddressSpace) (h : Heap) (mo : MemoryObject)
    (r : ObjRef) (bytes : List Nat) : Heap × AddressSpace :=
  let (h2, as2, r2) := as.getWriteable h mo r
  (h2.set r2 { h2.get r2 with bytes := bytes }, as2)

/-- The bytes state `as` currently sees for the object with id `i`
(`none` when unbound). -/
def AddressSpace.view (as : AddressSpace) (h : Heap) (i : Nat) : Option (List Nat) :=
  (MemoryMap.lookup as.objects i).map (fun p => (h.get p.2).bytes)

/-- `Solver::Validity`. -/
inductive Validity where
  | tru | fls | unknown
  deriving DecidableEq, Repr

/-- The solver trait the core consumes (§6 of the spec).  Queries are made
against a state's constraint list; `none` models a failed (timed-out)
call, mirroring the C++ `bool` return with out-parameter. -/
structure Solver where
  evaluate : List Expr → Expr → Option Validity
  mayBeTrue : List Expr → Expr → Option Bool
  mustBeTrue : List Expr → Expr → Option Bool
  getValue : List Expr → Expr → Option Nat

/-- Modelled from the spec (TimingSolver.cpp is not under src/): the
timing-solver wrapper decides constant queries by folding, without
consulting the external solver, so `evaluate` on a `ConstantExpr` always
succeeds with the constant's truth value. -/
def Solver.WF (s : Solver) : Prop :=
  ∀ cs n, s.evaluate cs (.const n) = some (if n = 0 then .fls else .tru)

/-- `AddressSpace::resolveConstantAddress`: look the constant segment up in
`segmentMap`, falling back to `concreteAddressMap[address]` when the
segment is 0 but the concrete address is nonzero.  The C++ caller
guarantees the segment component is a `ConstantExpr`; a dangling
`segmentMap` entry (never the case under the engine's invariants) resolves
to `none`. -/
def AddressSpace.resolveConstantAddress (as : AddressSpace) (p : KValue) :
    Option ObjectPair :=
  match p.pointerSegment with
  | .const seg0 =>
    let address : Nat := match p.value with | .const a => a | _ => 0
    let seg : Nat :=
      if seg0 = 0 ∧ address ≠ 0 then
        match ConcreteAddressMap.lookup as.concreteAddressMap address with
        | some q => q.2
        | none => seg0
      else seg0
    if seg ≠ 0 then
      match SegmentMap.lookup as.segmentMap seg with
      | some q => MemoryMap.lookup as.objects q.2.id
      | none => none
    else none
  | _ => none

/-- Result of one of `resolveOne`'s scan loops. -/
inductive ScanResult where
  | failed
  | found : ObjectPair → ScanResult
  | notFound
  deriving DecidableEq, Repr

/-- The backward loop of `AddressSpace::resolveOne` (`while (oi != begin)`),
translated with the reverse iterator as an explicit index: position `pos`
examines entry `pos - 1`.  Per entry: ask `mayBeTrue` of the bounds check
(hit returns the pair), otherwise `mustBeTrue(offset >= base)` decides
whether to stop walking backward. -/
def scanBackSrc (solver : Solver) (cs : List Expr) (m : MemoryMap) (p : KValue) :
    Nat → ScanResult
  | 0 => .notFound
  | pos + 1 =>
    match m.get? pos with
    | none => .notFound
    | some e =>
      match solver.mayBeTrue cs (e.1.getBoundsCheckPointer p) with
      | none => .failed
      | some true => .found e
      | some false =>
        match solver.mustBeTrue cs (.uge p.getOffset e.1.getBaseExpr) with
        | none => .failed
        | some true => .notFound
        | some false => scanBackSrc solver cs m p pos

/-- The forward loop of `AddressSpace::resolveOne`
(`for (oi = start; oi != end; ++oi)`): per entry, `mustBeTrue(offset <
base)` stops the walk, otherwise a `mayBeTrue` bounds-check hit returns
the pair. -/
def scanFwdSrc (solver : Solver) (cs : List Expr) (m : MemoryMap) (p : KValue)
    (pos : Nat) : ScanResult :=
  if h : pos < m.length then
    let e := m.get ⟨pos, h⟩
    match solver.mustBeTrue cs (.ult p.getOffset e.1.getBaseExpr) with
    | none => .failed
    | some true => .notFound
    | some false =>
      match solver.mayBeTrue cs (e.1.getBoundsCheckPointer p) with
      | none => .failed
      | some true => .found e
      | some false => scanFwdSrc solver cs m p (pos + 1)
  else .notFound
termination_by m.length - pos

/-- The C++ `resolveOne` returns `ok` (false on a failed solver call) and
fills the out-parameters `success` and `result`; `none` records an
out-parameter the code left unassigned. -/
structure ResolveOneReturn where
  ok : Bool
  success : Option Bool
  result : Option ObjectPair
  deriving DecidableEq, Repr

/-- `AddressSpace::resolveOne` (the walking version of
src/lib/Core/AddressSpace.cpp).  `hackId` is the id of the
default-constructed probe `MemoryObject hack` (modelled from the spec:
ids come from a dense counter, so the probe's id is fresh). -/
def AddressSpace.resolveOne (as : AddressSpace) (solver : Solver) (cs : List Expr)
    (p : KValue) (hackId : Nat) : ResolveOneReturn :=
  if p.isConstant then
    match as.resolveConstantAddress p with
    | some pair => ⟨true, some true, some pair⟩
    | none => ⟨true, some false, none⟩
  else
    let segStep : Option Nat :=
      match p.pointerSegment with
      | .const s => some s
      | _ => solver.getValue cs p.pointerSegment
    match segStep with
    | none => ⟨false, none, none⟩
    | some s =>
      if s ≠ 0 then
        -- the code returns resolveConstantAddress's flag as its own return
        -- value here and leaves the `success` out-parameter unassigned
        match as.resolveConstantAddress ⟨.const s, p.getOffset⟩ with
        | some pair => ⟨true, none, some pair⟩
        | none => ⟨false, none, none⟩
      else
        let start := MemoryMap.upperBound as.objects hackId
        match scanBackSrc solver cs as.objects p start with
        | .failed => ⟨false, none, none⟩
        | .found pair => ⟨true, some true, some pair⟩
        | .notFound =>
          match scanFwdSrc solver cs as.objects p start with
          | .failed => ⟨false, none, none⟩
          | .found pair => ⟨true, some true, some pair⟩
          | .notFound => ⟨true, some false, none⟩

/-- Outcome of `AddressSpace::checkPointerInObject` together with the
updated resolution list: `0` = complete (the single candidate must be the
object), `1` = incomplete (query failure or `maxResolutions` reached),
`2` = keep scanning. -/
inductive CPIOResult where
  | done : List ObjectPair → CPIOResult
  | incomplete : List ObjectPair → CPIOResult
  | continueScan : List ObjectPair → CPIOResult
  deriving DecidableEq, Repr

/-- `AddressSpace::checkPointerInObject`. -/
def checkPointerInObject (solver : Solver) (cs : List Expr) (p : KValue)
    (op : ObjectPair) (rl : List ObjectPair) (maxResolutions : Nat) : CPIOResult :=
  let inBounds := op.1.getBoundsCheckPointer p
  match solver.mayBeTrue cs inBounds with
  | none => .incomplete rl
  | some false => .continueScan rl
  | some true =>
    let rl2 := rl ++ [op]
    if rl2.length = 1 then
      match solver.mustBeTrue cs inBounds with
      | none => .incomplete rl2
      | some true => .done rl2
      | some false => .continueScan rl2
    else if rl2.length = maxResolutions then .incomplete rl2
    else .continueScan rl2

/-- One of `resolveConstantSegment`'s scan loops either returned out of the
function (with the incomplete flag) or fell through to the next phase. -/
inductive RCSLoop where
  | returned : Bool → List ObjectPair → RCSLoop
  | fell : List ObjectPair → RCSLoop
  deriving DecidableEq, Repr

/-- The backward loop of `AddressSpace::resolveConstantSegment`, with the
reverse iterator as an explicit index (position `pos` examines entry
`pos - 1`).  The timeout guards never fire on the verified call path
(`resolveExact` passes the default empty `time::Span`, and
`if (timeout && ...)` is false for it), so they are not modelled. -/
def rcsBack (solver : Solver) (cs : List Expr) (m : MemoryMap) (p : KValue)
    (maxResolutions : Nat) (rl : List ObjectPair) : Nat → RCSLoop
  | 0 => .fell rl
  | pos + 1 =>
    match m.get? pos with
    | none => .fell rl
    | some e =>
      match checkPointerInObject solver cs p e rl maxResolutions with
      | .done rl2 => .returned false rl2
      | .incomplete rl2 => .returned true rl2
      | .continueScan rl2 =>
        match solver.mustBeTrue cs (.uge p.getOffset e.1.getBaseExpr) with
        | none => .returned true rl2
        | some true => .fell rl2
        | some false => rcsBack solver cs m p maxResolutions rl2 pos

/-- The forward loop of `AddressSpace::resolveConstantSegment`. -/
def rcsFwd (solver : Solver) (cs : List Expr) (m : MemoryMap) (p : KValue)
    (maxResolutions : Nat) (rl : List ObjectPair) (pos : Nat) : RCSLoop :=
  if h : pos < m.length then
    let e := m.get ⟨pos, h⟩
    match solver.mustBeTrue cs (.ult p.getOffset e.1.getBaseExpr) with
    | none => .returned true rl
    | some true => .fell rl
    | some false =>
      match checkPointerInObject solver cs p e rl maxResolutions with
      | .done rl2 => .returned false rl2
      | .incomplete rl2 => .returned true rl2
      | .continueScan rl2 => rcsFwd solver cs m p maxResolutions rl2 (pos + 1)
  else .fell rl
termination_by m.length - pos

/-- `AddressSpace::resolveConstantSegment`: returns the C++ pair of the
incomplete flag and the accumulated resolution list.  The segment
component is a `ConstantExpr` at every call site (the C++ `cast`); a
non-constant is answered conservatively as incomplete.  For a nonzero
segment the single `resolveConstantAddress` hit is appended; for segment
zero the offset is concretized and the two scan loops run. -/
def AddressSpace.resolveConstantSegment (as : AddressSpace) (solver : Solver)
    (cs : List Expr) (p : KValue) (rl0 : List ObjectPair) (maxResolutions : Nat)
    (hackId : Nat) : Bool × List ObjectPair :=
  match p.pointerSegment with
  | .const s =>
    if s ≠ 0 then
      match as.resolveConstantAddress p with
      | some pair => (false, rl0 ++ [pair])
      | none => (false, rl0)
    else
      match solver.getValue cs p.getOffset with
      | none => (true, rl0)
      | some _ =>
        let start := MemoryMap.upperBound as.objects hackId
        match rcsBack solver cs as.objects p maxResolutions rl0 start with
        | .returned inc rl => (inc, rl)
        | .fell rl =>
          match rcsFwd solver cs as.objects p maxResolutions rl start with
          | .returned inc rl2 => (inc, rl2)
          | .fell rl2 => (false, rl2)
  | _ => (true, rl0)

/-- The `segmentMap` sweep of the symbolic-segment branch of
`AddressSpace::resolve`: for every registered segment, ask whether the
pointer's segment may equal it and collect the bound objects. -/
def resolveSegmentSweep (solver : Solver) (cs : List Expr) (as : AddressSpace)
    (p : KValue) (rl : List ObjectPair) :
    List (Nat × MemoryObject) → Bool × List ObjectPair
  | [] => (false, rl)
  | e :: rest =>
    match solver.mayBeTrue cs (createEq p.pointerSegment (.const e.1)) with
    | none => (true, rl)
    | some true =>
      match MemoryMap.lookup as.objects e.2.id with
      | some pair => resolveSegmentSweep solver cs as p (rl ++ [pair]) rest
      | none => resolveSegmentSweep solver cs as p rl rest
    | some false => resolveSegmentSweep solver cs as p rl rest

/-- `AddressSpace::resolve`: dispatch on whether the segment is constant;
a symbolic segment first tries the zero-segment scan when the segment may
be zero, then sweeps the `segmentMap`. -/
def AddressSpace.resolve (as : AddressSpace) (solver : Solver) (cs : List Expr)
    (p : KValue) (maxResolutions : Nat) (hackId : Nat) : Bool × List ObjectPair :=
  match p.pointerSegment with
  | .const _ => as.resolveConstantSegment solver cs p [] maxResolutions hackId
  | _ =>
    match solver.mayBeTrue cs (createIsZero p.pointerSegment) with
    | none => (true, [])
    | some mb =>
      let zeroStep :=
        if mb then
          as.resolveConstantSegment solver cs ⟨.const 0, p.getValue⟩ [] maxResolutions hackId
        else (false, [])
      if zeroStep.1 then (true, zeroStep.2)
      else resolveSegmentSweep solver cs as p zeroStep.2 as.segmentMap

/-- The execution state (§3 of the spec).  `block` records the current
basic block (set by `transferToBasicBlock`); locals are an association
list over register indices. -/
structure ExecutionState where
  constraints : List Expr
  pc : Nat
  prevPC : Nat
  block : Nat
  depth : Nat
  coveredNew : Bool
  forkDisabled : Bool
  addressSpace : AddressSpace
  locals : List (Nat × KValue)
  deriving DecidableEq, Repr

instance : Inhabited ExecutionState :=
  ⟨⟨[], 0, 0, 0, 0, false, false, AddressSpace.init, []⟩⟩

/-- Modelled from the spec (ExecutionState.cpp is not under src/):
`add_constraint` appends to the implicitly conjoined constraint vector. -/
def ExecutionState.addConstraint (s : ExecutionState) (c : Expr) : ExecutionState :=
  { s with constraints := s.constraints ++ [c] }

/-- Modelled from the spec (ExecutionState.cpp is not under src/):
`branch()` returns a sibling with identical constraints and locals; the
address space is duplicated through the copy constructor under src/, which
bumps both copy-on-write keys; the fork depth grows on both siblings.
Returns (updated original, fresh sibling). -/
def ExecutionState.branch (s : ExecutionState) : ExecutionState × ExecutionState :=
  let d := s.depth + 1
  let p := s.addressSpace.clone
  ({ s with depth := d, addressSpace := p.1 },
   { s with depth := d, addressSpace := p.2 })

/-- A local read, for stating what `bindLocal` publishes. -/
def ExecutionState.getLocal (s : ExecutionState) (i : Nat) : Option KValue :=
  (s.locals.find? (fun q => q.1 = i)).map (fun q => q.2)

namespace Executor

/-- `Executor::bindLocal`: write the destination cell. -/
def bindLocal (target : Nat) (state : ExecutionState) (v : KValue) : ExecutionState :=
  { state with locals := (target, v) :: state.locals.filter (fun q => q.1 ≠ target) }

/-- `Executor::addConstraint`: a constant condition must be true (a false
one is `report_fatal_error`, modelled as `none`) and is not recorded;
otherwise the state's constraint vector grows.  Seed patching only touches
the seed store, and `doImpliedValueConcretization` is dead code in this
repository (`ivcEnabled` is initialized to false and never set). -/
def addConstraint (state : ExecutionState) (condition : Expr) : Option ExecutionState :=
  match condition with
  | .const n => if n ≠ 0 then some state else none
  | c => some (state.addConstraint c)

/-- The knobs and per-call oracles `Executor::fork` consults.
`forkSuppress` abbreviates the whole max-static-fork budget guard of step
1; `maxForksReached` is `MaxForks != ~0u && stats::forks >= MaxForks`;
`maxMemoryInhibit` is `MaxMemoryInhibit && atMemoryLimit`; the `seedSat*`
flags say whether some seed of the current state satisfies / falsifies the
condition (the seed assignments themselves live outside the modelled
state). -/
structure ForkConfig where
  forkSuppress : Bool
  maxMemoryInhibit : Bool
  inhibitForking : Bool
  maxForksReached : Bool
  maxDepth : Nat
  replayPathMode : Bool
  replayBit : Bool
  replayKTest : Bool
  onlyReplaySeeds : Bool
  rngBool : Bool
  isSeeding : Bool
  seedSatTrue : Bool
  seedSatFalse : Bool
  deriving DecidableEq, Repr

/-- What `Executor::fork` did.  `pair` is the returned `StatePair`;
`earlyTerminated` records a state killed via `terminateStateEarly` before
returning `(0, 0)` (the solver-timeout path); `bothTerminated` is the
max-depth path killing both children; `fatal` stands for
`report_fatal_error` / failed `assert`. -/
inductive ForkResult where
  | pair : Option ExecutionState → Option ExecutionState → ForkResult
  | earlyTerminated : ExecutionState → String → ForkResult
  | bothTerminated : ExecutionState → ExecutionState → String → ForkResult
  | fatal : String → ForkResult
  deriving DecidableEq, Repr

/-- The tail of `Executor::fork` once the validity `res` is final: `True`
and `False` return the current state on the matching side; `Unknown`
clones the state, redistributes seed bookkeeping (only the
covered-new swap is state-visible), constrains the children with the
condition and its negation, and applies the max-depth cutoff. -/
def forkFinish (cfg : ForkConfig) (current : ExecutionState) (condition : Expr)
    (res : Validity) : ForkResult :=
  match res with
  | .tru => .pair (some current) none
  | .fls => .pair none (some current)
  | .unknown =>
    let p := current.branch
    let swap := cfg.isSeeding && !cfg.seedSatTrue
    let trueState := if swap then { p.1 with coveredNew := p.2.coveredNew } else p.1
    let falseState := if swap then { p.2 with coveredNew := p.1.coveredNew } else p.2
    match addConstraint trueState condition,
          addConstraint falseState (createIsZero condition) with
    | some t, some f =>
      if cfg.maxDepth ≠ 0 ∧ cfg.maxDepth ≤ t.depth then
        .bothTerminated t f "max-depth exceeded."
      else .pair (some t) (some f)
    | _, _ => .fatal "attempt to add invalid constraint"

/-- Step 3 of `Executor::fork`: replay-path agreement, the fork-inhibition
case (memory cap, per-state disable, global inhibit, max-forks) that picks
one branch at random, and the seeding fixup when only one side has seeds. -/
def forkStep3 (cfg : ForkConfig) (current : ExecutionState) (condition : Expr)
    (isInternal : Bool) (res : Validity) : ForkResult :=
  if !cfg.isSeeding then
    if cfg.replayPathMode ∧ ¬isInternal then
      match res with
      | .tru =>
        if cfg.replayBit then forkFinish cfg current condition .tru
        else .fatal "hit invalid branch in replay path mode"
      | .fls =>
        if !cfg.replayBit then forkFinish cfg current condition .fls
        else .fatal "hit invalid branch in replay path mode"
      | .unknown =>
        if cfg.replayBit then
          match addConstraint current condition with
          | some c2 => forkFinish cfg c2 condition .tru
          | none => .fatal "attempt to add invalid constraint"
        else
          match addConstraint current (createIsZero condition) with
          | some c2 => forkFinish cfg c2 condition .fls
          | none => .fatal "attempt to add invalid constraint"
    else if res = .unknown then
      if cfg.replayKTest then .fatal "in replay mode, only one branch can be true."
      else if cfg.maxMemoryInhibit ∨ current.forkDisabled ∨ cfg.inhibitForking ∨
          cfg.maxForksReached then
        if cfg.rngBool then
          match addConstraint current condition with
          | some c2 => forkFinish cfg c2 condition .tru
          | none => .fatal "attempt to add invalid constraint"
        else
          match addConstraint current (createIsZero condition) with
          | some c2 => forkFinish cfg c2 condition .fls
          | none => .fatal "attempt to add invalid constraint"
      else forkFinish cfg current condition .unknown
    else forkFinish cfg current condition res
  else
    if (current.forkDisabled ∨ cfg.onlyReplaySeeds) ∧ res = .unknown then
      if cfg.seedSatTrue ∧ cfg.seedSatFalse then forkFinish cfg current condition .unknown
      else if cfg.seedSatTrue then
        match addConstraint current condition with
        | some c2 => forkFinish cfg c2 condition .tru
        | none => .fatal "attempt to add invalid constraint"
      else if cfg.seedSatFalse then
        match addConstraint current (createIsZero condition) with
        | some c2 => forkFinish cfg c2 condition .fls
        | none => .fatal "attempt to add invalid constraint"
      else .fatal "no seed evaluates on either side"
    else forkFinish cfg current condition res

/-- Step 2 of `Executor::fork`: evaluate the condition with the per-call
timeout; a failed call rewinds `pc = prevPC`, terminates the state early
with the timeout message and returns no live states. -/
def forkEval (cfg : ForkConfig) (solver : Solver) (current : ExecutionState)
    (condition : Expr) (isInternal : Bool) : ForkResult :=
  match solver.evaluate current.constraints condition with
  | none => .earlyTerminated { current with pc := current.prevPC } "Query timed out (fork)."
  | some res => forkStep3 cfg current condition isInternal res

/-- `Executor::fork`.  Step 1: when the static fork/solve budgets say the
instruction is too busy (and the state is not seeding), concretize the
condition via `getValue`, constrain the state to that value, and continue
with the constant. -/
def fork (cfg : ForkConfig) (solver : Solver) (current : ExecutionState)
    (condition : Expr) (isInternal : Bool) : ForkResult :=
  if !cfg.isSeeding && !condition.isConst && cfg.forkSuppress then
    match solver.getValue current.constraints condition with
    | none => .fatal "unhandled solver failure"
    | some v =>
      match addConstraint current (createEq (.const v) condition) with
      | none => .fatal "attempt to add invalid constraint"
      | some c1 => forkEval cfg solver c1 (.const v) isInternal
  else forkEval cfg solver current condition isInternal

/-- The clone loop of `Executor::branch` (the non-budgeted arm): position
`i = result.size()` picks `es = result[getInt32() % i]`, branches it (which
also updates the picked entry, since `ExecutionState::branch` mutates its
receiver's address space), and appends the sibling to both `result` and
`addedStates`.  `rng` supplies the successive `getInt32` draws. -/
def branchClones (rng : List Nat) :
    Nat → List ExecutionState × List ExecutionState →
    List ExecutionState × List ExecutionState
  | 0, acc => acc
  | k + 1, (result, added) =>
    let i := result.length
    let idx := rng.headD 0 % i
    let es := result.getD idx default
    let p := es.branch
    branchClones rng.tail k (result.set idx p.1 ++ [p.2], added ++ [p.2])

/-- The final loop of `Executor::branch`: constrain every surviving output
with its condition (`none` models `report_fatal_error` on a constant-false
condition). -/
def constrainResults :
    List (Option ExecutionState) → List Expr → Option (List (Option ExecutionState))
  | [], _ => some []
  | r :: rs, [] => (constrainResults rs []).map (fun l => r :: l)
  | none :: rs, _ :: cs => (constrainResults rs cs).map (fun l => none :: l)
  | some st :: rs, c :: cs =>
    match addConstraint st c with
    | none => none
    | some st2 => (constrainResults rs cs).map (fun l => some st2 :: l)

/-- `Executor::branch` (the n-way fork).  When the max-forks budget is
exhausted, a single random index keeps the input state and every other
slot is null; otherwise `N - 1` siblings are cloned from random earlier
results.  Seed redistribution only moves seed records; its sole
state-visible effect is that under `OnlyReplaySeeds` a result that kept no
seed is terminated (`seedKeep` is that per-index oracle).  Every surviving
result is then constrained with its condition.  Returns the result row and
`addedStates`. -/
def branchN (cfg : ForkConfig) (state : ExecutionState) (conditions : List Expr)
    (rng : List Nat) (seedKeep : Nat → Bool) :
    Option (List (Option ExecutionState) × List ExecutionState) :=
  let N := conditions.length
  if N = 0 then none
  else
    let base : List (Option ExecutionState) × List ExecutionState :=
      if cfg.maxForksReached then
        ((List.range N).map (fun i => if i = rng.headD 0 % N then some state else none),
         [])
      else
        let p := branchClones rng (N - 1) ([state], [])
        (p.1.map some, p.2)
    let kept :=
      if cfg.isSeeding ∧ cfg.onlyReplaySeeds then
        base.1.enum.map (fun q => if seedKeep q.1 then q.2 else none)
      else base.1
    (constrainResults kept conditions).map (fun l => (l, base.2))

/-- How a state left one of the modelled operations: still live, terminated
with an error (`terminateStateOnError` with its reason and message),
terminated early, or a fatal engine abort. -/
inductive ExecOutcome where
  | live : ExecutionState → ExecOutcome
  | errorTerm : ExecutionState → TerminateReason → String → ExecOutcome
  | earlyTerm : ExecutionState → String → ExecOutcome
  | fatal : String → ExecOutcome
  deriving DecidableEq, Repr

/-- The fork loop of `Executor::resolveExact`: thread the unbound state
through an internal fork against each candidate's exact-pointer equality;
states that the fork engine terminated surface as outcomes.  Returns the
per-candidate hits, the final unbound state (if any), and those side
outcomes. -/
def resolveExactLoop (cfg : ForkConfig) (solver : Solver) (address : KValue) :
    List ObjectPair → ExecutionState →
    List (ObjectPair × ExecutionState) × Option ExecutionState × List ExecOutcome
  | [], unbound => ([], some unbound, [])
  | op :: rest, unbound =>
    let inBounds := KValue.eqValue address op.1.getPointer
    match fork cfg solver unbound inBounds true with
    | .pair t f =>
      let hit := match t with
        | some ts => [(op, ts)]
        | none => []
      match f with
      | some fs =>
        let rec2 := resolveExactLoop cfg solver address rest fs
        (hit ++ rec2.1, rec2.2.1, rec2.2.2)
      | none => (hit, none, [])
    | .earlyTerminated st msg => ([], none, [.earlyTerm st msg])
    | .bothTerminated t f msg => ([], none, [.earlyTerm t msg, .earlyTerm f msg])
    | .fatal msg => ([], none, [.fatal msg])

/-- `Executor::resolveExact`: enumerate the pointer's resolutions, fork an
exact match for each, and terminate whatever remains unbound with the
`Ptr` error `"memory error: invalid pointer: <name>"`.  The expression
optimizer (not under src/) is the identity here: no optimization pass is
configured on this path. -/
def resolveExact (cfg : ForkConfig) (solver : Solver) (state : ExecutionState)
    (address : KValue) (nm : String) (hackId : Nat) :
    List (ObjectPair × ExecutionState) × List ExecOutcome :=
  let optimAddress := address
  let rl := (state.addressSpace.resolve solver state.constraints optimAddress 0 hackId).2
  let t := resolveExactLoop cfg solver optimAddress rl state
  match t.2.1 with
  | some ub =>
    (t.1, t.2.2 ++ [.errorTerm ub .ptr ("memory error: invalid pointer: " ++ nm)])
  | none => (t.1, t.2.2)

/-- The per-resolution body of `Executor::executeFree`: freeing an alloca
or a global is a `Free` error; otherwise the object is unbound and a null
pointer is bound as the call's result. -/
def freeOne (target : Option Nat) (q : ObjectPair × ExecutionState) : ExecOutcome :=
  if q.1.1.isLocal then .errorTerm q.2 .freeR "free of alloca"
  else if q.1.1.isGlobal then .errorTerm q.2 .freeR "free of global"
  else
    let st := { q.2 with addressSpace := q.2.addressSpace.unbindObject q.1.1 }
    match target with
    | some tg => .live (bindLocal tg st nullPointerKValue)
    | none => .live st

/-- `Executor::executeFree`: fork internally on the pointer being zero; the
null branch silently binds a null result; the non-null branch resolves the
pointer exactly and frees each resolution. -/
def executeFree (cfg : ForkConfig) (solver : Solver) (state : ExecutionState)
    (address : KValue) (target : Option Nat) (hackId : Nat) : List ExecOutcome :=
  let addressOptim := address
  match fork cfg solver state (KValue.createIsZero addressOptim) true with
  | .pair t f =>
    let nullOut : List ExecOutcome :=
      match t with
      | some ts =>
        match target with
        | some tg => [.live (bindLocal tg ts nullPointerKValue)]
        | none => [.live ts]
      | none => []
    let nonNullOut : List ExecOutcome :=
      match f with
      | some fs =>
        let q := resolveExact cfg solver fs addressOptim "free" hackId
        q.2 ++ q.1.map (freeOne target)
      | none => []
    nullOut ++ nonNullOut
  | .earlyTerminated st msg => [.earlyTerm st msg]
  | .bothTerminated a b msg => [.earlyTerm a msg, .earlyTerm b msg]
  | .fatal msg => [.fatal msg]

/-- `Executor::toUnique`: try to collapse a symbolic expression to the one
constant it must equal; on any solver failure the expression is returned
unchanged.  (The optimizer on this path is the identity, as above.) -/
def toUnique (solver : Solver) (cs : List Expr) (e : Expr) : Expr :=
  if e.isConst then e
  else
    match solver.getValue cs e with
    | none => e
    | some v =>
      match solver.mustBeTrue cs (createEq e (.const v)) with
      | some true => .const v
      | _ => e

/-- `Executor::transferToBasicBlock`: set the state's position to the
destination block's entry (the PHI incoming-index bookkeeping has no
bearing on the verified properties and is elided). -/
def transferToBasicBlock (dst : Nat) (state : ExecutionState) : ExecutionState :=
  { state with block := dst }

/-- One case of a `SwitchInst`: its constant value and successor block. -/
structure SwitchCase where
  value : Nat
  target : Nat
  deriving DecidableEq, Repr

/-- Insertion into the `std::map<ref<Expr>, BasicBlock*> expressionOrder`:
constants order by value, and `std::map::insert` keeps an existing key. -/
def exprOrderInsert (m : List SwitchCase) (c : SwitchCase) : List SwitchCase :=
  match m with
  | [] => [c]
  | p :: rest =>
    if c.value < p.value then c :: p :: rest
    else if c.value = p.value then p :: rest
    else p :: exprOrderInsert rest c

/-- The deterministic ordering of the switch's non-default cases. -/
def exprOrder (cases : List SwitchCase) : List SwitchCase :=
  cases.foldl exprOrderInsert []

/-- Lookup in the `branchTargets` accumulator. -/
def btLookup (bt : List (Nat × Expr)) (t : Nat) : Option Expr :=
  (bt.find? (fun q => q.1 = t)).map (fun q => q.2)

/-- Update of an existing `branchTargets` entry. -/
def btUpdate (bt : List (Nat × Expr)) (t : Nat) (e : Expr) : List (Nat × Expr) :=
  bt.map (fun q => if q.1 = t then (t, e) else q)

/-- The per-case loop of the symbolic `Instruction::Switch` handler: in
expression order, skip cases already going to the default block, conjoin
the negated match into the default predicate, and for each feasible case
accumulate the per-target disjunction (targets enter `bbOrder` on first
hit).  `none` models the asserted solver failure. -/
def switchCasesLoop (solver : Solver) (cs : List Expr) (cond : Expr)
    (defaultDest : Nat) :
    List SwitchCase → Expr × List (Nat × Expr) × List Nat →
    Option (Expr × List (Nat × Expr) × List Nat)
  | [], acc => some acc
  | c :: rest, (dv, bt, ord) =>
    let matchE := createEq cond (.const c.value)
    if c.target = defaultDest then
      switchCasesLoop solver cs cond defaultDest rest (dv, bt, ord)
    else
      let dv2 := createAnd dv (createIsZero matchE)
      match solver.mayBeTrue cs matchE with
      | none => none
      | some false => switchCasesLoop solver cs cond defaultDest rest (dv2, bt, ord)
      | some true =>
        match btLookup bt c.target with
        | some old =>
          switchCasesLoop solver cs cond defaultDest rest
            (dv2, btUpdate bt c.target (createOr matchE old), ord)
        | none =>
          switchCasesLoop solver cs cond defaultDest rest
            (dv2, bt ++ [(c.target, createOr matchE (.const 0))], ord ++ [c.target])

/-- What the `Instruction::Switch` handler did: a single deterministic
transfer (constant condition), or an n-way branch whose i-th slot carries
the i-th `bbOrder` target and its surviving, transferred state, plus the
freshly added states. -/
inductive SwitchResult where
  | jump : ExecutionState → Nat → SwitchResult
  | nway : List (Nat × Option ExecutionState) → List ExecutionState → SwitchResult
  | fatal : String → SwitchResult
  deriving DecidableEq, Repr

/-- The symbolic-condition arm of the `Instruction::Switch` handler: build
the per-target predicates and the default predicate, then n-way branch in
`bbOrder` order and transfer each surviving state to its block. -/
def executeSwitchSymbolic (cfg : ForkConfig) (solver : Solver)
    (state : ExecutionState) (condS : Expr) (cases : List SwitchCase)
    (defaultDest : Nat) (rng : List Nat) (seedKeep : Nat → Bool) : SwitchResult :=
  match switchCasesLoop solver state.constraints condS defaultDest
      (exprOrder cases) (.const 1, [], []) with
  | none => .fatal "unhandled solver failure"
  | some (dv, bt, ord) =>
    match solver.mayBeTrue state.constraints dv with
    | none => .fatal "unhandled solver failure"
    | some dres =>
      let p :=
        if dres then
          match btLookup bt defaultDest with
          | some _ => (bt, ord)
          | none => (bt ++ [(defaultDest, dv)], ord ++ [defaultDest])
        else (bt, ord)
      let conditions := p.2.map (fun t => (btLookup p.1 t).getD (.const 0))
      match branchN cfg state conditions rng seedKeep with
      | none => .fatal "branch on no conditions"
      | some q =>
        .nway
          ((p.2.zip q.1).map
            (fun e => (e.1, e.2.map (transferToBasicBlock e.1))))
          q.2

/-- The `Instruction::Switch` handler of `Executor::executeInstruction`. -/
def executeSwitch (cfg : ForkConfig) (solver : Solver) (state : ExecutionState)
    (cond0 : Expr) (cases : List SwitchCase) (defaultDest : Nat) (rng : List Nat)
    (seedKeep : Nat → Bool) : SwitchResult :=
  let cond := toUnique solver state.constraints cond0
  match cond with
  | .const c =>
    let tgt :=
      match cases.find? (fun q => q.value = c) with
      | some q => q.target
      | none => defaultDest
    .jump (transferToBasicBlock tgt state) tgt
  | condS =>
    executeSwitchSymbolic cfg solver state condS cases defaultDest rng seedKeep

/-- The `Instruction::And` case of `Executor::executeInstruction`: compute
the bitwise And of the cells and then overwrite the result's
`pointerSegment` with the left operand's segment. -/
def executeInstructionAnd (l r : KValue) : KValue :=
  let newCell := KValue.andOp l r
  { newCell with pointerSegment := l.getSegment }

/-- The options the termination paths read. -/
structure TermConfig where
  exitOnErrorType : List TerminateReason
  onlyOutputStatesCoveringNew : Bool
  alwaysOutputSeeds : Bool
  emitAllErrors : Bool
  deriving DecidableEq, Repr

/-- `Executor::shouldExitOn`. -/
def shouldExitOn (cfg : TermConfig) (r : TerminateReason) : Bool :=
  cfg.exitOnErrorType.contains r

/-- Whether `Executor::terminateStateEarly` calls
`interpreterHandler->processTestCase` for a state with the given
covered-new flag and seed presence. -/
def terminateStateEarlyEmits (cfg : TermConfig) (coveredNew hasSeeds : Bool) : Bool :=
  cfg.exitOnErrorType.isEmpty &&
    (!cfg.onlyOutputStatesCoveringNew || coveredNew ||
      (cfg.alwaysOutputSeeds && hasSeeds))

/-- How `Executor::terminateStateOnExit` ended: delegated to
`terminateStateOnError` (a leak), or terminated normally with the recorded
test-case emission. -/
inductive ExitTermination where
  | delegatedError : TerminateReason → String → ExitTermination
  | normal : Bool → ExitTermination
  deriving DecidableEq, Repr

/-- `Executor::terminateStateOnExit`.  The leak analyses themselves
(LLVM-type walks) are summarized by the oracles `hasLeaks` (some heap
object remains) and `unreachableLeak` (the check-leaks reachability pass
found an unreachable one). -/
def terminateStateOnExitRun (cfg : TermConfig)
    (checkLeaks checkMemCleanup hasLeaks unreachableLeak coveredNew hasSeeds : Bool) :
    ExitTermination :=
  if (checkLeaks || checkMemCleanup) && hasLeaks then
    if checkMemCleanup then .delegatedError .leak "memory error: memory not cleaned up"
    else if unreachableLeak then
      .delegatedError .leak "memory error: memory leak detected"
    else .normal false
  else
    .normal (cfg.exitOnErrorType.isEmpty &&
      (!cfg.onlyOutputStatesCoveringNew || coveredNew ||
        (cfg.alwaysOutputSeeds && hasSeeds)))

/-- Whether `Executor::terminateStateOnError` calls `processTestCase`:
the halt flag is first updated by `shouldExitOn(termReason)`, and the
emission condition is `EmitAllErrors || haltExecution ||
(ExitOnErrorType.empty() && notemitted)`. -/
def terminateStateOnErrorEmits (cfg : TermConfig) (haltBefore : Bool)
    (reason : TerminateReason) (notYetEmitted : Bool) : Bool :=
  let halt := haltBefore || shouldExitOn cfg reason
  cfg.emitAllErrors || halt || (cfg.exitOnErrorType.isEmpty && notYetEmitted)

end Executor

/-- A world for the copy-on-write argument: the shared pool of
`ObjectState`s and the address spaces of all live states. -/
abbrev CowWorld := Heap × List AddressSpace

/-- The address space of the `i`-th live state. -/
def spAt (spaces : List AddressSpace) (i : Nat) : AddressSpace :=
  spaces.getD i AddressSpace.init

/-- The state-level memory operations reachable during exploration, as far
as sharing of `ObjectState`s is concerned: forking a state (which runs the
address-space copy constructor), writing to an object through
`getWriteable`, and binding a fresh object. -/
inductive CowStep : CowWorld → CowWorld → Prop where
  | fork (h : Heap) (spaces : List AddressSpace) (i : Nat) (hi : i < spaces.length) :
      CowStep (h, spaces)
        (h, spaces.set i ((spaces.getD i AddressSpace.init).clone.1) ++
            [(spaces.getD i AddressSpace.init).clone.2])
  | write (h : Heap) (spaces : List AddressSpace) (i : Nat) (hi : i < spaces.length)
      (mo : MemoryObject) (r : ObjRef) (bytes : List Nat)
      (hb : MemoryMap.lookup (spaces.getD i AddressSpace.init).objects mo.id =
        some (mo, r)) :
      CowStep (h, spaces)
        (((spaces.getD i AddressSpace.init).writeObject h mo r bytes).1,
         spaces.set i ((spaces.getD i AddressSpace.init).writeObject h mo r bytes).2)
  | bind (h : Heap) (spaces : List AddressSpace) (i : Nat) (hi : i < spaces.length)
      (mo : MemoryObject) (os : ObjectState) :
      CowStep (h, spaces)
        (((spaces.getD i AddressSpace.init).bindObject h mo os).1,
         spaces.set i ((spaces.getD i AddressSpace.init).bindObject h mo os).2)

/-- The sharing invariant: every bound reference is live, owners never
exceed their space's `cowKey`, and a reference visible from two distinct
address spaces is owned by neither. -/
def CowInv (hp : Heap) (spaces : List AddressSpace) : Prop :=
  (∀ sp ∈ spaces, ∀ q ∈ sp.objects, q.2 < hp.length) ∧
  (∀ sp ∈ spaces, ∀ q ∈ sp.objects,
    (Heap.get hp q.2).copyOnWriteOwner ≤ sp.cowKey) ∧
  (∀ i < spaces.length, ∀ j < spaces.length, i ≠ j →
    ∀ q ∈ (spAt spaces i).objects, ∀ q2 ∈ (spAt spaces j).objects, q.2 = q2.2 →
      (Heap.get hp q.2).copyOnWriteOwner ≠ (spAt spaces i).cowKey)

instance (hp : Heap) (spaces : List AddressSpace) : Decidable (CowInv hp spaces) := by
  unfold CowInv spAt
  infer_instance

/-! ### General lemmas about the embedded operations -/

theorem createAnd_holds (a b : Expr) (σ : Nat → Nat) :
    (createAnd a b).holds σ ↔ (a.holds σ ∧ b.holds σ) := by
  unfold createAnd Expr.holds
  split <;> (try split_ifs) <;>
    simp_all [Expr.evalN, Nat.not_le, Nat.not_lt]

theorem createOr_holds (a b : Expr) (σ : Nat → Nat) :
    (createOr a b).holds σ ↔ (a.holds σ ∨ b.holds σ) := by
  unfold createOr Expr.holds
  split <;> (try split_ifs) <;>
    simp_all [Expr.evalN, Nat.not_le, Nat.not_lt] <;> tauto

theorem createEq_holds (a b : Expr) (σ : Nat → Nat) :
    (createEq a b).holds σ ↔ a.evalN σ = b.evalN σ := by
  unfold createEq Expr.holds
  split <;> (try split_ifs) <;>
    simp_all [Expr.evalN, Nat.not_le, Nat.not_lt]

theorem createIsZero_holds (a : Expr) (σ : Nat → Nat) :
    (createIsZero a).holds σ ↔ a.evalN σ = 0 := by
  unfold createIsZero Expr.holds
  split <;> (try split_ifs) <;>
    simp_all [Expr.evalN, Nat.not_le, Nat.not_lt]


theorem createEq_not_const (a b : Expr) (h : b.isConst = false) :
    (createEq a b).isConst = false := by
  unfold createEq
  cases a <;> cases b <;> simp_all [Expr.isConst]

theorem createIsZero_not_const (a : Expr) (h : a.isConst = false) :
    (createIsZero a).isConst = false := by
  unfold createIsZero
  cases a <;> simp_all [Expr.isConst]

theorem addConstraint_not_const (st : ExecutionState) (c : Expr)
    (h : c.isConst = false) :
    Executor.addConstraint st c = some (st.addConstraint c) := by
  unfold Executor.addConstraint
  cases c <;> simp_all [Expr.isConst]

theorem forkFinish_ne_early (cfg : Executor.ForkConfig) (cur : ExecutionState)
    (cond : Expr) (res : Validity) (st : ExecutionState) (msg : String) :
    Executor.forkFinish cfg cur cond res ≠ .earlyTerminated st msg := by
  unfold Executor.forkFinish
  cases res <;> simp only [] <;> (repeat' split) <;> simp

theorem forkStep3_ne_early (cfg : Executor.ForkConfig) (cur : ExecutionState)
    (cond : Expr) (isInternal : Bool) (res : Validity) (st : ExecutionState)
    (msg : String) :
    Executor.forkStep3 cfg cur cond isInternal res ≠ .earlyTerminated st msg := by
  unfold Executor.forkStep3
  repeat' split
  all_goals first
    | apply forkFinish_ne_early
    | simp

/-! ### The claim theorems -/

/-- C7: the `Instruction::And` handler sets the result's `pointerSegment`
to the left operand's segment unconditionally — in particular also when
the left operand is a scalar (segment 0) and the right operand carries a
nonzero segment, so the result's segment never comes from the right
operand. -/
theorem and_instruction_left_segment_bias :
    (∀ l r : KValue, (Executor.executeInstructionAnd l r).pointerSegment =
      l.pointerSegment) ∧
    (Executor.executeInstructionAnd ⟨.const 0, .var 0⟩
        ⟨.const 5, .var 1⟩).pointerSegment = .const 0 :=
  ⟨fun _ _ => rfl, rfl⟩

/-- C10: with a non-empty exit-on-error-type list, normal (on-exit) and
early terminations never call `processTestCase` (they do so only when the
list is empty), while an error termination still emits a test case when
`EmitAllErrors` is set, when the error kind triggers the halt, or when no
filter is set and the (instruction, message) pair is new. -/
theorem testcase_emission_respects_exit_on_error :
    (∀ cfg : Executor.TermConfig, ∀ cn hs : Bool, cfg.exitOnErrorType ≠ [] →
      Executor.terminateStateEarlyEmits cfg cn hs = false) ∧
    (∀ cfg : Executor.TermConfig, ∀ cn hs : Bool,
      Executor.terminateStateEarlyEmits cfg cn hs = true →
      cfg.exitOnErrorType = []) ∧
    (∀ cfg : Executor.TermConfig, ∀ cl cm hl ul cn hs : Bool,
      cfg.exitOnErrorType ≠ [] →
      Executor.terminateStateOnExitRun cfg cl cm hl ul cn hs ≠ .normal true) ∧
    (∀ cfg : Executor.TermConfig, ∀ hb : Bool, ∀ r : TerminateReason, ∀ ne : Bool,
      cfg.emitAllErrors = true →
      Executor.terminateStateOnErrorEmits cfg hb r ne = true) ∧
    (∀ cfg : Executor.TermConfig, ∀ hb : Bool, ∀ r : TerminateReason, ∀ ne : Bool,
      Executor.shouldExitOn cfg r = true →
      Executor.terminateStateOnErrorEmits cfg hb r ne = true) ∧
    (∀ cfg : Executor.TermConfig, ∀ hb : Bool, ∀ r : TerminateReason, ∀ ne : Bool,
      cfg.exitOnErrorType = [] → ne = true →
      Executor.terminateStateOnErrorEmits cfg hb r ne = true) := by
  refine ⟨?_, ?_, ?_, ?_, ?_, ?_⟩
  · intro cfg cn hs hne
    unfold Executor.terminateStateEarlyEmits
    cases h : cfg.exitOnErrorType <;> simp_all
  · intro cfg cn hs hemit
    unfold Executor.terminateStateEarlyEmits at hemit
    cases h : cfg.exitOnErrorType <;> simp_all
  · intro cfg cl cm hl ul cn hs hne
    unfold Executor.terminateStateOnExitRun
    split_ifs <;> cases h : cfg.exitOnErrorType <;> simp_all
  · intro cfg hb r ne hall
    unfold Executor.terminateStateOnErrorEmits
    simp [hall]
  · intro cfg hb r ne hexit
    unfold Executor.terminateStateOnErrorEmits
    simp [hexit]
  · intro cfg hb r ne hempty hne
    unfold Executor.terminateStateOnErrorEmits
    simp [hempty, hne]

/-- Witness for C10 at concrete configurations. -/
theorem testcase_emission_respects_exit_on_error_witness :
    Executor.terminateStateEarlyEmits ⟨[.ptr], false, false, false⟩ true true = false ∧
    Executor.terminateStateOnExitRun ⟨[.ptr], false, false, false⟩ false false false
      false true true ≠ .normal true ∧
    Executor.terminateStateOnErrorEmits ⟨[.ptr], false, false, true⟩ false .freeR
      false = true ∧
    Executor.terminateStateOnErrorEmits ⟨[.ptr], false, false, false⟩ false .ptr
      false = true ∧
    Executor.terminateStateOnErrorEmits ⟨[], false, false, false⟩ false .freeR
      true = true :=
  ⟨testcase_emission_respects_exit_on_error.1 _ _ _ (by decide),
   testcase_emission_respects_exit_on_error.2.2.1 _ _ _ _ _ _ _ (by decide),
   testcase_emission_respects_exit_on_error.2.2.2.1 _ _ _ _ rfl,
   testcase_emission_respects_exit_on_error.2.2.2.2.1 _ _ _ _ (by decide),
   testcase_emission_respects_exit_on_error.2.2.2.2.2 _ _ _ _ rfl rfl⟩

/-- C5: whenever the solver's `evaluate` call inside `fork` fails, the
state's program counter is rewound to `prevPC`, the state is terminated
early with the message `"Query timed out (fork)."`, the fork returns no
live states, and no constraint was added to the state beforehand. -/
theorem fork_timeout_rewinds_pc_and_terminates
    (cfg : Executor.ForkConfig) (solver : Solver) (current : ExecutionState)
    (condition : Expr) (isInternal : Bool) (st : ExecutionState) (msg : String)
    (hwf : Solver.WF solver)
    (h : Executor.fork cfg solver current condition isInternal =
      .earlyTerminated st msg) :
    st = { current with pc := current.prevPC } ∧
    st.pc = current.prevPC ∧
    st.constraints = current.constraints ∧
    msg = "Query timed out (fork)." := by
  have hwf' : ∀ cs n, solver.evaluate cs (.const n) =
      some (if n = 0 then .fls else .tru) := hwf
  unfold Executor.fork at h
  by_cases hg : (!cfg.isSeeding && !condition.isConst && cfg.forkSuppress) = true
  · rw [if_pos hg] at h
    have hc : condition.isConst = false := by
      have h2 := ((Bool.and_eq_true _ _).mp hg).1
      have h3 := ((Bool.and_eq_true _ _).mp h2).2
      simpa using h3
    cases hv : solver.getValue current.constraints condition with
    | none =>
      simp only [hv] at h
      simp at h
    | some v =>
      simp only [hv,
        addConstraint_not_const _ _ (createEq_not_const (.const v) _ hc)] at h
      unfold Executor.forkEval at h
      simp only [hwf'] at h
      exact absurd h (forkStep3_ne_early _ _ _ _ _ _ _)
  · rw [if_neg hg] at h
    unfold Executor.forkEval at h
    cases he : solver.evaluate current.constraints condition with
    | none =>
      simp only [he, Executor.ForkResult.earlyTerminated.injEq] at h
      obtain ⟨h1, h2⟩ := h
      subst h1; subst h2
      exact ⟨rfl, rfl, rfl, rfl⟩
    | some res =>
      simp only [he] at h
      exact absurd h (forkStep3_ne_early _ _ _ _ _ _ _)

/-- A solver that decides constants and times out on everything else. -/
def sampleTimeoutSolver : Solver :=
  ⟨fun _ e =>
      match e with
      | .const n => some (if n = 0 then .fls else .tru)
      | _ => none,
    fun _ _ => none, fun _ _ => none, fun _ _ => none⟩

theorem sampleTimeoutSolver_wf : Solver.WF sampleTimeoutSolver :=
  fun _ _ => rfl

/-- A solver that decides constants and answers Unknown on everything
else. -/
def unknownOnSymbolicSolver : Solver :=
  ⟨fun _ e =>
      match e with
      | .const n => some (if n = 0 then .fls else .tru)
      | _ => some .unknown,
    fun _ _ => none, fun _ _ => none, fun _ _ => none⟩

theorem unknownOnSymbolicSolver_wf : Solver.WF unknownOnSymbolicSolver :=
  fun _ _ => rfl

/-- A fork configuration with every inhibition and special mode off. -/
def plainForkConfig : Executor.ForkConfig :=
  ⟨false, false, false, false, 0, false, false, false, false, false, false,
   false, false⟩

/-- A small state used by the concrete witnesses. -/
def sampleState : ExecutionState :=
  ⟨[], 5, 3, 0, 0, false, false, AddressSpace.init, []⟩

/-- Witness for C5: the concrete timeout solver makes `fork` terminate the
state early, and the theorem's conclusions evaluate on it. -/
theorem fork_timeout_rewinds_pc_and_terminates_witness :
    ({ sampleState with pc := sampleState.prevPC } : ExecutionState) =
      { sampleState with pc := sampleState.prevPC } ∧
    ({ sampleState with pc := sampleState.prevPC } : ExecutionState).pc =
      sampleState.prevPC ∧
    ({ sampleState with pc := sampleState.prevPC } : ExecutionState).constraints =
      sampleState.constraints ∧
    "Query timed out (fork)." = "Query timed out (fork)." :=
  fork_timeout_rewinds_pc_and_terminates plainForkConfig sampleTimeoutSolver
    sampleState (.var 0) false _ _ sampleTimeoutSolver_wf rfl

theorem eval_unknown_not_const (solver : Solver) (cs : List Expr) (e : Expr)
    (hwf : Solver.WF solver) (huk : solver.evaluate cs e = some .unknown) :
    e.isConst = false := by
  have hwf' : ∀ cs n, solver.evaluate cs (.const n) =
      some (if n = 0 then .fls else .tru) := hwf
  cases e with
  | const n =>
    have hx := hwf' cs n
    rw [huk] at hx
    by_cases hn : n = 0 <;> simp [hn] at hx
  | _ => rfl

theorem fork_unknown_eq
    (cfg : Executor.ForkConfig) (solver : Solver) (current : ExecutionState)
    (condition : Expr) (isInternal : Bool)
    (hc : condition.isConst = false)
    (hseed : cfg.isSeeding = false)
    (hsupp : cfg.forkSuppress = false)
    (hreplay : cfg.replayPathMode = false)
    (hkt : cfg.replayKTest = false)
    (hmem : cfg.maxMemoryInhibit = false)
    (hfd : current.forkDisabled = false)
    (hinh : cfg.inhibitForking = false)
    (hmf : cfg.maxForksReached = false)
    (hmd : cfg.maxDepth = 0)
    (huk : solver.evaluate current.constraints condition = some .unknown) :
    Executor.fork cfg solver current condition isInternal =
      .pair (some (current.branch.1.addConstraint condition))
        (some (current.branch.2.addConstraint (createIsZero condition))) := by
  unfold Executor.fork
  rw [if_neg (by simp [hsupp])]
  unfold Executor.forkEval
  simp only [huk]
  unfold Executor.forkStep3
  simp only [hseed, hreplay, hkt, hmem, hfd, hinh, hmf, Bool.not_false,
    Bool.false_eq_true, false_and, if_false, if_true, eq_self_iff_true,
    false_or, or_self, or_false, if_pos]
  unfold Executor.forkFinish
  simp only [hseed, Bool.false_and, Bool.if_false_left]
  rw [addConstraint_not_const _ _ hc,
    addConstraint_not_const _ _ (createIsZero_not_const _ hc)]
  simp [hmd]

/-- C1: a binary fork whose condition evaluates to `Unknown` (no seeding,
replay, budget, or depth inhibition) creates exactly one new state: the
returned true-state is the original state with the condition appended to
its constraints, the false-state is a clone with the negation appended, so
the children's constraint sets differ by exactly the condition versus its
negation and both extend the parent's. -/
theorem fork_unknown_adds_exactly_condition_and_negation
    (cfg : Executor.ForkConfig) (solver : Solver) (current : ExecutionState)
    (condition : Expr) (isInternal : Bool)
    (hwf : Solver.WF solver)
    (hseed : cfg.isSeeding = false)
    (hsupp : cfg.forkSuppress = false)
    (hreplay : cfg.replayPathMode = false)
    (hkt : cfg.replayKTest = false)
    (hmem : cfg.maxMemoryInhibit = false)
    (hfd : current.forkDisabled = false)
    (hinh : cfg.inhibitForking = false)
    (hmf : cfg.maxForksReached = false)
    (hmd : cfg.maxDepth = 0)
    (huk : solver.evaluate current.constraints condition = some .unknown) :
    ∃ tS fS,
      Executor.fork cfg solver current condition isInternal =
        .pair (some tS) (some fS) ∧
      tS = { current with
              depth := current.depth + 1,
              addressSpace := current.addressSpace.clone.1,
              constraints := current.constraints ++ [condition] } ∧
      fS = { current with
              depth := current.depth + 1,
              addressSpace := current.addressSpace.clone.2,
              constraints := current.constraints ++ [createIsZero condition] } ∧
      tS.constraints = current.constraints ++ [condition] ∧
      fS.constraints = current.constraints ++ [createIsZero condition] ∧
      (∀ c ∈ current.constraints, c ∈ tS.constraints ∧ c ∈ fS.constraints) := by
  have hc := eval_unknown_not_const solver current.constraints condition hwf huk
  refine ⟨_, _,
    fork_unknown_eq cfg solver current condition isInternal hc hseed hsupp
      hreplay hkt hmem hfd hinh hmf hmd huk, rfl, rfl, rfl, rfl, ?_⟩
  intro c hcmem
  exact ⟨List.mem_append_left _ hcmem, List.mem_append_left _ hcmem⟩

/-- Witness for C1 at a concrete state and condition. -/
theorem fork_unknown_adds_exactly_condition_and_negation_witness :
    ∃ tS fS,
      Executor.fork
        ⟨false, false, false, false, 0, false, false, false, false, false,
          false, false, false⟩
        unknownOnSymbolicSolver
        ⟨[.var 9], 5, 3, 0, 0, false, false, AddressSpace.init, []⟩
        (.var 0) false = .pair (some tS) (some fS) ∧
      tS = { (⟨[.var 9], 5, 3, 0, 0, false, false, AddressSpace.init, []⟩ :
              ExecutionState) with
              depth := 1,
              addressSpace := AddressSpace.init.clone.1,
              constraints := [.var 9] ++ [.var 0] } ∧
      fS = { (⟨[.var 9], 5, 3, 0, 0, false, false, AddressSpace.init, []⟩ :
              ExecutionState) with
              depth := 1,
              addressSpace := AddressSpace.init.clone.2,
              constraints := [.var 9] ++ [createIsZero (.var 0)] } ∧
      tS.constraints = [.var 9] ++ [.var 0] ∧
      fS.constraints = [.var 9] ++ [createIsZero (.var 0)] ∧
      (∀ c ∈ [Expr.var 9], c ∈ tS.constraints ∧ c ∈ fS.constraints) := by
  have h := fork_unknown_adds_exactly_condition_and_negation
    ⟨false, false, false, false, 0, false, false, false, false, false, false,
      false, false⟩
    unknownOnSymbolicSolver
    ⟨[.var 9], 5, 3, 0, 0, false, false, AddressSpace.init, []⟩
    (.var 0) false
    unknownOnSymbolicSolver_wf rfl rfl rfl rfl rfl rfl rfl rfl rfl rfl
  exact h

theorem getLocal_bindLocal_self (tg : Nat) (st : ExecutionState) (v : KValue) :
    (Executor.bindLocal tg st v).getLocal tg = some v := by
  simp [Executor.bindLocal, ExecutionState.getLocal, List.find?]

/-- C8: freeing a pointer that may be null forks internally on the pointer
being zero; on the null branch the free succeeds silently: the state stays
live (no error of any kind), a null-pointer result is bound into the
target cell, the bindings of the address space are untouched (no object is
unbound), and the only state change is the appended null-pointer
constraint. -/
theorem free_null_branch_silent
    (cfg : Executor.ForkConfig) (solver : Solver) (state : ExecutionState)
    (address : KValue) (tg : Nat) (hackId : Nat)
    (hwf : Solver.WF solver)
    (hseed : cfg.isSeeding = false)
    (hsupp : cfg.forkSuppress = false)
    (hreplay : cfg.replayPathMode = false)
    (hkt : cfg.replayKTest = false)
    (hmem : cfg.maxMemoryInhibit = false)
    (hfd : state.forkDisabled = false)
    (hinh : cfg.inhibitForking = false)
    (hmf : cfg.maxForksReached = false)
    (hmd : cfg.maxDepth = 0)
    (huk : solver.evaluate state.constraints (KValue.createIsZero address) =
      some .unknown) :
    ∃ tS rest,
      Executor.executeFree cfg solver state address (some tg) hackId =
        Executor.ExecOutcome.live tS :: rest ∧
      tS.addressSpace.objects = state.addressSpace.objects ∧
      tS.addressSpace.segmentMap = state.addressSpace.segmentMap ∧
      tS.getLocal tg = some nullPointerKValue ∧
      tS.constraints = state.constraints ++ [KValue.createIsZero address] := by
  have hc := eval_unknown_not_const solver state.constraints _ hwf huk
  refine ⟨Executor.bindLocal tg
      (state.branch.1.addConstraint (KValue.createIsZero address))
      nullPointerKValue,
    (Executor.resolveExact cfg solver
        (state.branch.2.addConstraint (createIsZero (KValue.createIsZero address)))
        address "free" hackId).2 ++
      (Executor.resolveExact cfg solver
        (state.branch.2.addConstraint (createIsZero (KValue.createIsZero address)))
        address "free" hackId).1.map (Executor.freeOne (some tg)),
    ?_, rfl, rfl, getLocal_bindLocal_self _ _ _, rfl⟩
  unfold Executor.executeFree
  dsimp only
  rw [fork_unknown_eq cfg solver state (KValue.createIsZero address) true hc
    hseed hsupp hreplay hkt hmem hfd hinh hmf hmd huk]
  rfl

theorem fork_const_internal (cfg : Executor.ForkConfig) (solver : Solver)
    (current : ExecutionState) (n : Nat) (hwf : Solver.WF solver) :
    Executor.fork cfg solver current (.const n) true =
      if n = 0 then .pair none (some current) else .pair (some current) none := by
  have hwf' : ∀ cs m, solver.evaluate cs (.const m) =
      some (if m = 0 then .fls else .tru) := hwf
  unfold Executor.fork
  rw [if_neg (by simp [Expr.isConst])]
  unfold Executor.forkEval
  simp only [hwf']
  by_cases hn : n = 0
  · rw [if_pos hn, if_pos hn]
    unfold Executor.forkStep3
    by_cases hsd : (!cfg.isSeeding) = true
    · rw [if_pos hsd, if_neg (by simp), if_neg (by simp)]
      rfl
    · rw [if_neg hsd, if_neg (by simp)]
      rfl
  · rw [if_neg hn, if_neg hn]
    unfold Executor.forkStep3
    by_cases hsd : (!cfg.isSeeding) = true
    · rw [if_pos hsd, if_neg (by simp), if_neg (by simp)]
      rfl
    · rw [if_neg hsd, if_neg (by simp)]
      rfl

theorem fork_const_zero_internal (cfg : Executor.ForkConfig) (solver : Solver)
    (current : ExecutionState) (hwf : Solver.WF solver) :
    Executor.fork cfg solver current (.const 0) true =
      .pair none (some current) := by
  rw [fork_const_internal cfg solver current 0 hwf]
  rfl

theorem fork_const_nonzero_internal (cfg : Executor.ForkConfig) (solver : Solver)
    (current : ExecutionState) (n : Nat) (hn : n ≠ 0) (hwf : Solver.WF solver) :
    Executor.fork cfg solver current (.const n) true =
      .pair (some current) none := by
  rw [fork_const_internal cfg solver current n hwf, if_neg hn]

theorem segmentMap_lookup_remove (m : SegmentMap) (s : Nat) :
    SegmentMap.lookup (SegmentMap.remove m s) s = none := by
  induction m with
  | nil => rfl
  | cons a m ih =>
    unfold SegmentMap.remove SegmentMap.lookup at ih ⊢
    by_cases ha : a.1 = s <;> simp [List.filter, ha, List.find?] <;> simp_all

theorem constrainResults_replicate_none (cs : List Expr) (n : Nat) :
    Executor.constrainResults (List.replicate n none) cs =
      some (List.replicate n none) := by
  induction n generalizing cs with
  | zero => cases cs <;> rfl
  | succ n ih =>
    cases cs with
    | nil => simp [List.replicate_succ, Executor.constrainResults, ih]
    | cons c cs => simp [List.replicate_succ, Executor.constrainResults, ih]

theorem map_const_none {α β : Type} (l : List α) :
    l.map (fun _ => (none : Option β)) = List.replicate l.length none := by
  induction l with
  | nil => rfl
  | cons a l ih => simp [ih, List.replicate_succ]

theorem constrainResults_onehot (st st2 : ExecutionState) :
    ∀ (cs : List Expr) (k : Nat), k < cs.length →
    Executor.addConstraint st (cs.getD k (.const 0)) = some st2 →
    Executor.constrainResults
      ((List.range cs.length).map (fun i => if i = k then some st else none)) cs
      = some ((List.range cs.length).map
          (fun i => if i = k then some st2 else none)) := by
  intro cs
  induction cs with
  | nil => intro k hk; exact absurd hk (by simp)
  | cons c cs ih =>
    intro k hk hadd
    rw [List.length_cons, List.range_succ_eq_map, List.map_cons, List.map_map,
      List.map_cons, List.map_map]
    cases k with
    | zero =>
      simp only [if_pos rfl]
      have htail : ∀ b : ExecutionState, (List.range cs.length).map
          ((fun i => if i = 0 then some b else none) ∘ Nat.succ) =
          List.replicate cs.length (none : Option ExecutionState) := by
        intro b
        have hfun : ((fun i => if i = 0 then some b else none) ∘ Nat.succ) =
            (fun _ : Nat => (none : Option ExecutionState)) := by
          funext i; simp [Function.comp]
        rw [hfun, map_const_none, List.length_range]
      rw [htail st, htail st2]
      have hc : Executor.addConstraint st c = some st2 := hadd
      simp [Executor.constrainResults, hc, constrainResults_replicate_none]
    | succ k =>
      simp only [Nat.succ_ne_zero, if_neg (Nat.succ_ne_zero k).symm]
      have hshift : ∀ b : ExecutionState,
          (List.range cs.length).map
            ((fun i => if i = k + 1 then some b else none) ∘ Nat.succ) =
          (List.range cs.length).map (fun i => if i = k then some b else none) := by
        intro b
        apply List.map_congr_left
        intro i _
        simp [Function.comp, Nat.succ_inj]
      rw [hshift st, hshift st2]
      have hk' : k < cs.length := by
        simpa using hk
      have := ih k hk' hadd
      simp [Executor.constrainResults, this]

/-- C9: once the max-forks budget is exhausted, the n-way `branch` creates
no new states: one index, selected by the RNG draw modulo N, keeps the
original state (constrained by that index's condition) and every other
output slot is null, with an empty added-states list. -/
theorem branch_maxforks_single_random_state
    (cfg : Executor.ForkConfig) (state : ExecutionState) (conditions : List Expr)
    (rng : List Nat) (seedKeep : Nat → Bool)
    (hmf : cfg.maxForksReached = true)
    (hseed : cfg.isSeeding = false)
    (hne : conditions ≠ [])
    (hsel : (conditions.getD (rng.headD 0 % conditions.length)
      (.const 0)).isConst = false) :
    Executor.branchN cfg state conditions rng seedKeep =
      some ((List.range conditions.length).map
        (fun i => if i = rng.headD 0 % conditions.length then
            some (state.addConstraint
              (conditions.getD (rng.headD 0 % conditions.length) (.const 0)))
          else none), []) ∧
    rng.headD 0 % conditions.length < conditions.length := by
  have hlen : 0 < conditions.length := List.length_pos.mpr hne
  have hk : rng.headD 0 % conditions.length < conditions.length :=
    Nat.mod_lt _ hlen
  constructor
  · unfold Executor.branchN
    rw [if_neg (by omega), hmf, if_pos rfl]
    simp only [hseed, Bool.false_eq_true, false_and, if_false]
    have := constrainResults_onehot state
      (state.addConstraint
        (conditions.getD (rng.headD 0 % conditions.length) (.const 0)))
      conditions (rng.headD 0 % conditions.length) hk
      (addConstraint_not_const _ _ hsel)
    rw [this]
    rfl
  · exact hk

/-- Witness for C9: two conditions, RNG draw 5, so index 1 survives. -/
theorem branch_maxforks_single_random_state_witness :
    Executor.branchN
      ⟨false, false, false, true, 0, false, false, false, false, false, false,
        false, false⟩
      sampleState [.var 0, .var 1] [5] (fun _ => true) =
      some ((List.range 2).map
        (fun i => if i = 5 % 2 then
            some (sampleState.addConstraint ([Expr.var 0, .var 1].getD (5 % 2)
              (.const 0)))
          else none), []) ∧
    5 % 2 < 2 := by
  have h := branch_maxforks_single_random_state
    ⟨false, false, false, true, 0, false, false, false, false, false, false,
      false, false⟩
    sampleState [.var 0, .var 1] [5] (fun _ => true) rfl rfl (by simp) rfl
  simpa using h

/-- C6: freeing a heap-allocated object (neither local nor global) unbinds
it — removing its segment-map entry — and binds a null result; a second
free of the same pointer in that state finds no resolution for the segment
and terminates the state with the `Ptr` error
`"memory error: invalid pointer: free"`. -/
theorem double_free_terminates_ptr
    (cfg : Executor.ForkConfig) (solver : Solver) (state : ExecutionState)
    (mo : MemoryObject) (r : ObjRef) (s tg hackId hackId2 : Nat)
    (hwf : Solver.WF solver)
    (hs0 : s ≠ 0)
    (hms : mo.segment = s)
    (hlocal : mo.isLocal = false)
    (hglobal : mo.isGlobal = false)
    (hseg : SegmentMap.lookup state.addressSpace.segmentMap s = some (s, mo))
    (hobj : MemoryMap.lookup state.addressSpace.objects mo.id = some (mo, r)) :
    ∃ st1,
      Executor.executeFree cfg solver state ⟨.const s, .const mo.address⟩
        (some tg) hackId = [.live st1] ∧
      st1 = Executor.bindLocal tg
        { state with addressSpace := state.addressSpace.unbindObject mo }
        nullPointerKValue ∧
      SegmentMap.lookup st1.addressSpace.segmentMap s = none ∧
      st1.getLocal tg = some nullPointerKValue ∧
      Executor.executeFree cfg solver st1 ⟨.const s, .const mo.address⟩
        (some tg) hackId2 =
        [.errorTerm st1 .ptr "memory error: invalid pointer: free"] := by
  have hcz : KValue.createIsZero (⟨.const s, .const mo.address⟩ : KValue) =
      .const 0 := by
    unfold KValue.createIsZero createIsZero createAnd
    simp [hs0]
  have hrca : state.addressSpace.resolveConstantAddress
      ⟨.const s, .const mo.address⟩ = some (mo, r) := by
    unfold AddressSpace.resolveConstantAddress
    simp [hs0, hseg, hobj]
  have hresolve : state.addressSpace.resolve solver state.constraints
      ⟨.const s, .const mo.address⟩ 0 hackId = (false, [(mo, r)]) := by
    unfold AddressSpace.resolve AddressSpace.resolveConstantSegment
    simp [hs0, hrca]
  have heq1 : KValue.eqValue ⟨.const s, .const mo.address⟩ mo.getPointer =
      .const 1 := by
    unfold KValue.eqValue MemoryObject.getPointer createEq createAnd
    simp [hms]
  have hloop : Executor.resolveExactLoop cfg solver
      ⟨.const s, .const mo.address⟩ [(mo, r)] state =
      ([((mo, r), state)], none, []) := by
    unfold Executor.resolveExactLoop
    rw [heq1]
    dsimp only
    rw [fork_const_nonzero_internal cfg solver state 1 one_ne_zero hwf]
  have hrexact : Executor.resolveExact cfg solver state
      ⟨.const s, .const mo.address⟩ "free" hackId = ([((mo, r), state)], []) := by
    unfold Executor.resolveExact
    dsimp only
    rw [hresolve]
    dsimp only
    rw [hloop]
  refine ⟨Executor.bindLocal tg
    { state with addressSpace := state.addressSpace.unbindObject mo }
    nullPointerKValue, ?_, rfl, ?_, getLocal_bindLocal_self _ _ _, ?_⟩
  · unfold Executor.executeFree
    dsimp only
    rw [hcz, fork_const_zero_internal cfg solver state hwf]
    dsimp only
    rw [hrexact]
    simp [Executor.freeOne, hlocal, hglobal]
  · unfold Executor.bindLocal AddressSpace.unbindObject
    simp only [hms]
    rw [if_pos hs0]
    exact segmentMap_lookup_remove _ _
  · set st1 := Executor.bindLocal tg
      { state with addressSpace := state.addressSpace.unbindObject mo }
      nullPointerKValue with hst1
    have hseg2 : SegmentMap.lookup st1.addressSpace.segmentMap s = none := by
      rw [hst1]
      unfold Executor.bindLocal AddressSpace.unbindObject
      simp only [hms]
      rw [if_pos hs0]
      exact segmentMap_lookup_remove _ _
    have hrca2 : st1.addressSpace.resolveConstantAddress
        ⟨.const s, .const mo.address⟩ = none := by
      unfold AddressSpace.resolveConstantAddress
      simp [hs0, hseg2]
    have hresolve2 : st1.addressSpace.resolve solver st1.constraints
        ⟨.const s, .const mo.address⟩ 0 hackId2 = (false, []) := by
      unfold AddressSpace.resolve AddressSpace.resolveConstantSegment
      simp [hs0, hrca2]
    have hrexact2 : Executor.resolveExact cfg solver st1
        ⟨.const s, .const mo.address⟩ "free" hackId2 =
        ([], [.errorTerm st1 .ptr "memory error: invalid pointer: free"]) := by
      unfold Executor.resolveExact
      dsimp only
      rw [hresolve2]
      dsimp only
      unfold Executor.resolveExactLoop
      rfl
    unfold Executor.executeFree
    dsimp only
    rw [hcz, fork_const_zero_internal cfg solver st1 hwf]
    dsimp only
    rw [hrexact2]
    rfl

theorem listGetD_set_self {α : Type} :
    ∀ (l : List α) (i : Nat) (x d : α), i < l.length →
      (l.set i x).getD i d = x := by
  intro l
  induction l with
  | nil => intro i x d hi; exact absurd hi (by simp)
  | cons a l ih =>
    intro i x d hi
    cases i with
    | zero => rfl
    | succ i => exact ih i x d (by simpa using hi)

theorem listGetD_set_ne {α : Type} :
    ∀ (l : List α) (i j : Nat) (x d : α), j ≠ i →
      (l.set i x).getD j d = l.getD j d := by
  intro l
  induction l with
  | nil => intro i j x d _; rfl
  | cons a l ih =>
    intro i j x d hne
    cases i with
    | zero =>
      cases j with
      | zero => exact absurd rfl hne
      | succ j => rfl
    | succ i =>
      cases j with
      | zero => rfl
      | succ j => exact ih i j x d (by omega)

theorem listGetD_append_lt {α : Type} :
    ∀ (l l2 : List α) (j : Nat) (d : α), j < l.length →
      (l ++ l2).getD j d = l.getD j d := by
  intro l
  induction l with
  | nil => intro l2 j d hj; exact absurd hj (by simp)
  | cons a l ih =>
    intro l2 j d hj
    cases j with
    | zero => rfl
    | succ j => exact ih l2 j d (by simpa using hj)

theorem listGetD_append_len {α : Type} :
    ∀ (l : List α) (x d : α), (l ++ [x]).getD l.length d = x := by
  intro l
  induction l with
  | nil => intro x d; rfl
  | cons a l ih => intro x d; exact ih x d

theorem listGetD_mem {α : Type} :
    ∀ (l : List α) (i : Nat) (d : α), i < l.length → l.getD i d ∈ l := by
  intro l
  induction l with
  | nil => intro i d hi; exact absurd hi (by simp)
  | cons a l ih =>
    intro i d hi
    cases i with
    | zero => exact List.mem_cons_self a l
    | succ i => exact List.mem_cons_of_mem a (ih i d (by simpa using hi))

theorem memoryMap_lookup_mem :
    ∀ (m : MemoryMap) (i : Nat) (q : ObjectPair),
      MemoryMap.lookup m i = some q → q ∈ m := by
  intro m
  induction m with
  | nil => intro i q hq; exact absurd hq (by simp [MemoryMap.lookup])
  | cons p m ih =>
    intro i q hq
    unfold MemoryMap.lookup at hq
    rw [List.find?_cons] at hq
    split at hq
    · cases hq; exact List.mem_cons_self _ _
    · exact List.mem_cons_of_mem _ (ih i q hq)

theorem memoryMap_replace_mem :
    ∀ (m : MemoryMap) (e q : ObjectPair),
      q ∈ MemoryMap.replace m e → q = e ∨ q ∈ m := by
  intro m
  induction m with
  | nil =>
    intro e q hq
    unfold MemoryMap.replace at hq
    simp at hq
    exact Or.inl hq
  | cons p m ih =>
    intro e q hq
    unfold MemoryMap.replace at hq
    split_ifs at hq with h1 h2
    · rcases List.mem_cons.mp hq with h | h
      · exact Or.inl h
      · exact Or.inr h
    · rcases List.mem_cons.mp hq with h | h
      · exact Or.inl h
      · exact Or.inr (List.mem_cons_of_mem _ h)
    · rcases List.mem_cons.mp hq with h | h
      · exact Or.inr (h ▸ List.mem_cons_self _ _)
      · rcases ih e q h with h2 | h2
        · exact Or.inl h2
        · exact Or.inr (List.mem_cons_of_mem _ h2)

theorem listSet_append_len {α : Type} :
    ∀ (l : List α) (a b : α), (l ++ [a]).set l.length b = l ++ [b] := by
  intro l
  induction l with
  | nil => intro a b; rfl
  | cons x l ih => intro a b; simp [ih]

theorem listSet_getD_self {α : Type} :
    ∀ (l : List α) (i : Nat) (d : α), l.set i (l.getD i d) = l := by
  intro l
  induction l with
  | nil => intro i d; rfl
  | cons x l ih =>
    intro i d
    cases i with
    | zero => rfl
    | succ i => exact congrArg (List.cons x) (ih i d)

/-- Index-to-space characterization after a fork step: every slot of the
new list is either one of the two fresh-keyed copies of the forked space
or an untouched old slot. -/
theorem cow_fork_key (spaces : List AddressSpace) (i : Nat)
    (hi : i < spaces.length) :
    ∀ j, j < spaces.length + 1 →
    ((spAt (spaces.set i ((spaces.getD i AddressSpace.init).clone.1) ++
        [(spaces.getD i AddressSpace.init).clone.2]) j).objects =
      (spaces.getD i AddressSpace.init).objects ∧
     (spAt (spaces.set i ((spaces.getD i AddressSpace.init).clone.1) ++
        [(spaces.getD i AddressSpace.init).clone.2]) j).cowKey =
      (spaces.getD i AddressSpace.init).cowKey + 1) ∨
    (j < spaces.length ∧ j ≠ i ∧
      spAt (spaces.set i ((spaces.getD i AddressSpace.init).clone.1) ++
        [(spaces.getD i AddressSpace.init).clone.2]) j =
      spAt spaces j) := by
  intro j hj
  by_cases hje : j = spaces.length
  · left
    subst hje
    have hlast := listGetD_append_len
      (spaces.set i ((spaces.getD i AddressSpace.init).clone.1))
      ((spaces.getD i AddressSpace.init).clone.2) AddressSpace.init
    rw [List.length_set] at hlast
    unfold spAt
    rw [hlast]
    exact ⟨rfl, rfl⟩
  · have hjl : j < spaces.length := by omega
    by_cases hji : j = i
    · left
      subst hji
      unfold spAt
      rw [listGetD_append_lt _ _ _ _ (by simpa using hjl),
        listGetD_set_self _ _ _ _ hjl]
      exact ⟨rfl, rfl⟩
    · right
      refine ⟨hjl, hji, ?_⟩
      unfold spAt
      rw [listGetD_append_lt _ _ _ _ (by simpa using hjl),
        listGetD_set_ne _ _ _ _ _ hji]

theorem cow_fork_preserves (hp : Heap) (spaces : List AddressSpace) (i : Nat)
    (hi : i < spaces.length) (hinv : CowInv hp spaces) :
    CowInv hp (spaces.set i ((spaces.getD i AddressSpace.init).clone.1) ++
      [(spaces.getD i AddressSpace.init).clone.2]) := by
  obtain ⟨h1, h2, h3⟩ := hinv
  have hAmem : spaces.getD i AddressSpace.init ∈ spaces :=
    listGetD_mem spaces i _ hi
  have hmem : ∀ sp ∈ spaces.set i ((spaces.getD i AddressSpace.init).clone.1) ++
      [(spaces.getD i AddressSpace.init).clone.2],
      sp ∈ spaces ∨
      (sp.objects = (spaces.getD i AddressSpace.init).objects ∧
        sp.cowKey = (spaces.getD i AddressSpace.init).cowKey + 1) := by
    intro sp hsp
    rcases List.mem_append.mp hsp with hl | hr
    · rcases List.mem_or_eq_of_mem_set hl with h | h
      · exact Or.inl h
      · exact Or.inr (by rw [h]; exact ⟨rfl, rfl⟩)
    · have hr2 : sp = (spaces.getD i AddressSpace.init).clone.2 := by simpa using hr
      exact Or.inr (by rw [hr2]; exact ⟨rfl, rfl⟩)
  refine ⟨?_, ?_, ?_⟩
  · intro sp hsp q hq
    rcases hmem sp hsp with h | h
    · exact h1 sp h q hq
    · exact h1 _ hAmem q (h.1 ▸ hq)
  · intro sp hsp q hq
    rcases hmem sp hsp with h | h
    · exact h2 sp h q hq
    · rw [h.2]
      exact le_trans (h2 _ hAmem q (h.1 ▸ hq)) (Nat.le_succ _)
  · intro j1 hj1 j2 hj2 hne q hq q2 hq2 heq
    have hlen : (spaces.set i ((spaces.getD i AddressSpace.init).clone.1) ++
        [(spaces.getD i AddressSpace.init).clone.2]).length = spaces.length + 1 := by
      simp
    rw [hlen] at hj1 hj2
    rcases cow_fork_key spaces i hi j1 hj1 with ⟨ho1, hk1⟩ | ⟨hl1, hne1, he1⟩
    · rw [hk1]
      have := h2 _ hAmem q (ho1 ▸ hq)
      omega
    · rcases cow_fork_key spaces i hi j2 hj2 with ⟨ho2, hk2⟩ | ⟨hl2, hne2, he2⟩
      · rw [he1]
        exact h3 j1 hl1 i hi hne1 q (he1 ▸ hq) q2 (ho2 ▸ hq2) heq
      · rw [he1]
        exact h3 j1 hl1 j2 hl2 hne q (he1 ▸ hq) q2 (he2 ▸ hq2) heq

/-- Preservation for an in-place byte store (the owned branch of a write):
the heap cell keeps its owner, only its bytes change. -/
theorem cow_setbytes_preserves (hp : Heap) (spaces : List AddressSpace)
    (r : ObjRef) (bytes : List Nat) (hr : r < hp.length)
    (hinv : CowInv hp spaces) :
    CowInv (Heap.set hp r { Heap.get hp r with bytes := bytes }) spaces := by
  obtain ⟨h1, h2, h3⟩ := hinv
  have hlen : (Heap.set hp r { Heap.get hp r with bytes := bytes }).length =
      hp.length := by
    simp [Heap.set]
  have howner : ∀ t, (Heap.get (Heap.set hp r { Heap.get hp r with bytes := bytes })
      t).copyOnWriteOwner = (Heap.get hp t).copyOnWriteOwner := by
    intro t
    by_cases ht : t = r
    · subst ht
      unfold Heap.get Heap.set
      rw [listGetD_set_self _ _ _ _ hr]
    · unfold Heap.get Heap.set
      rw [listGetD_set_ne _ _ _ _ _ ht]
  refine ⟨?_, ?_, ?_⟩
  · intro sp hsp q hq
    rw [hlen]
    exact h1 sp hsp q hq
  · intro sp hsp q hq
    rw [howner]
    exact h2 sp hsp q hq
  · intro j1 hj1 j2 hj2 hne q hq q2 hq2 heq
    rw [howner]
    exact h3 j1 hj1 j2 hj2 hne q hq q2 hq2 heq

/-- Preservation for extending the heap with an object owned by space `i`
whose binding replaces one of `i`'s entries: the fresh reference is not
visible from any other space. -/
theorem cow_extend_preserves (hp : Heap) (spaces : List AddressSpace) (i : Nat)
    (hi : i < spaces.length) (os2 : ObjectState) (as2 : AddressSpace)
    (hkey : as2.cowKey = (spaces.getD i AddressSpace.init).cowKey)
    (hown : os2.copyOnWriteOwner = (spaces.getD i AddressSpace.init).cowKey)
    (hobj : ∀ q ∈ as2.objects, q.2 = hp.length ∨
      q ∈ (spaces.getD i AddressSpace.init).objects)
    (hinv : CowInv hp spaces) :
    CowInv (hp ++ [os2]) (spaces.set i as2) := by
  obtain ⟨h1, h2, h3⟩ := hinv
  have hAmem : spaces.getD i AddressSpace.init ∈ spaces :=
    listGetD_mem spaces i _ hi
  have hget_lt : ∀ t, t < hp.length → Heap.get (hp ++ [os2]) t = Heap.get hp t := by
    intro t ht
    unfold Heap.get
    rw [listGetD_append_lt _ _ _ _ ht]
  have hget_len : Heap.get (hp ++ [os2]) hp.length = os2 := by
    unfold Heap.get
    exact listGetD_append_len _ _ _
  have hacc : ∀ j, j < spaces.length →
      spAt (spaces.set i as2) j =
        (if j = i then as2 else spAt spaces j) := by
    intro j hj
    by_cases hji : j = i
    · subst hji
      unfold spAt
      rw [if_pos rfl, listGetD_set_self _ _ _ _ hj]
    · unfold spAt
      rw [if_neg hji, listGetD_set_ne _ _ _ _ _ hji]
  refine ⟨?_, ?_, ?_⟩
  · intro sp hsp q hq
    have hlen2 : (hp ++ [os2]).length = hp.length + 1 := by simp
    rw [hlen2]
    rcases List.mem_or_eq_of_mem_set hsp with h | h
    · exact Nat.lt_succ_of_lt (h1 sp h q hq)
    · subst h
      rcases hobj q hq with h | h
      · rw [h]
        exact Nat.lt_succ_self _
      · exact Nat.lt_succ_of_lt (h1 _ hAmem q h)
  · intro sp hsp q hq
    rcases List.mem_or_eq_of_mem_set hsp with h | h
    · have hlt := h1 sp h q hq
      rw [hget_lt q.2 hlt]
      exact h2 sp h q hq
    · subst h
      rcases hobj q hq with h | h
      · rw [h, hget_len, hown, hkey]
      · have hlt := h1 _ hAmem q h
        rw [hget_lt q.2 hlt, hkey]
        exact h2 _ hAmem q h
  · intro j1 hj1 j2 hj2 hne q hq q2 hq2 heq
    rw [List.length_set] at hj1 hj2
    rw [hacc j1 hj1] at hq ⊢
    rw [hacc j2 hj2] at hq2
    by_cases hj1i : j1 = i
    · rw [if_pos hj1i] at hq ⊢
      rw [if_neg (fun hc => hne (hj1i.trans hc.symm))] at hq2
      rcases hobj q hq with h | h
      · -- the fresh reference is not bound in the old space j2
        have hlt := h1 _ (listGetD_mem spaces j2 _ hj2) q2 hq2
        rw [← heq, h] at hlt
        exact absurd hlt (lt_irrefl _)
      · have hlt := h1 _ hAmem q h
        rw [hget_lt q.2 hlt, hkey]
        rw [hj1i] at hne
        exact h3 i hi j2 hj2 hne q h q2 hq2 heq
    · rw [if_neg hj1i] at hq ⊢
      by_cases hj2i : j2 = i
      · rw [if_pos hj2i] at hq2
        rcases hobj q2 hq2 with h | h
        · have hlt := h1 _ (listGetD_mem spaces j1 _ hj1) q hq
          rw [heq, h] at hlt
          exact absurd hlt (lt_irrefl _)
        · have hlt := h1 _ (listGetD_mem spaces j1 _ hj1) q hq
          rw [hget_lt q.2 hlt]
          rw [hj2i] at hne
          exact h3 j1 hj1 i hi hne q hq q2 h heq
      · rw [if_neg hj2i] at hq2
        have hlt := h1 _ (listGetD_mem spaces j1 _ hj1) q hq
        rw [hget_lt q.2 hlt]
        exact h3 j1 hj1 j2 hj2 hne q hq q2 hq2 heq

theorem writeObject_owned_eq (as : AddressSpace) (h : Heap) (mo : MemoryObject)
    (r : ObjRef) (bytes : List Nat)
    (hk : as.cowKey = (Heap.get h r).copyOnWriteOwner) :
    as.writeObject h mo r bytes =
      (Heap.set h r { Heap.get h r with bytes := bytes }, as) := by
  unfold AddressSpace.writeObject AddressSpace.getWriteable
  rw [if_pos hk]

theorem writeObject_unowned_eq (as : AddressSpace) (h : Heap) (mo : MemoryObject)
    (r : ObjRef) (bytes : List Nat)
    (hk : ¬ as.cowKey = (Heap.get h r).copyOnWriteOwner) :
    as.writeObject h mo r bytes =
      (h ++ [{ Heap.get h r with copyOnWriteOwner := as.cowKey, bytes := bytes }],
       { as with objects := MemoryMap.replace as.objects (mo, h.length) }) := by
  unfold AddressSpace.writeObject AddressSpace.getWriteable Heap.alloc
  rw [if_neg hk]
  dsimp only
  have hlast : Heap.get (h ++ [{ Heap.get h r with copyOnWriteOwner := as.cowKey }])
      h.length = { Heap.get h r with copyOnWriteOwner := as.cowKey } := by
    unfold Heap.get
    exact listGetD_append_len _ _ _
  rw [hlast]
  unfold Heap.set
  rw [listSet_append_len]

theorem cowStep_preserves (w w' : CowWorld) (hs : CowStep w w')
    (hinv : CowInv w.1 w.2) : CowInv w'.1 w'.2 := by
  cases hs with
  | fork h spaces i hi => exact cow_fork_preserves h spaces i hi hinv
  | write h spaces i hi mo r bytes hb =>
    have hAmem : spaces.getD i AddressSpace.init ∈ spaces :=
      listGetD_mem spaces i _ hi
    have hmem_mo : (mo, r) ∈ (spaces.getD i AddressSpace.init).objects :=
      memoryMap_lookup_mem _ _ _ hb
    by_cases hk : (spaces.getD i AddressSpace.init).cowKey =
        (Heap.get h r).copyOnWriteOwner
    · have hwo := writeObject_owned_eq (spaces.getD i AddressSpace.init)
        h mo r bytes hk
      dsimp only
      rw [hwo]
      dsimp only
      rw [listSet_getD_self]
      have hr : r < h.length := hinv.1 _ hAmem (mo, r) hmem_mo
      exact cow_setbytes_preserves h spaces r bytes hr hinv
    · have hwo := writeObject_unowned_eq (spaces.getD i AddressSpace.init)
        h mo r bytes hk
      dsimp only
      rw [hwo]
      dsimp only
      refine cow_extend_preserves h spaces i hi _ _ rfl rfl ?_ hinv
      intro q hq
      rcases memoryMap_replace_mem _ _ _ hq with hqe | hqm
      · exact Or.inl (by rw [hqe])
      · exact Or.inr hqm
  | bind h spaces i hi mo os =>
    dsimp only
    refine cow_extend_preserves h spaces i hi _ _ rfl rfl ?_ hinv
    intro q hq
    rcases memoryMap_replace_mem _ _ _ hq with hqe | hqm
    · exact Or.inl (by rw [hqe])
    · exact Or.inr hqm

theorem cowSteps_preserve (w w' : CowWorld)
    (h : Relation.ReflTransGen CowStep w w') (hinv : CowInv w.1 w.2) :
    CowInv w'.1 w'.2 := by
  induction h with
  | refl => exact hinv
  | tail _ hbc ih => exact cowStep_preserves _ _ hbc ih

theorem cow_write_frame (h : Heap) (spaces : List AddressSpace) (i : Nat)
    (hi : i < spaces.length) (mo : MemoryObject) (r : ObjRef) (bytes : List Nat)
    (hb : MemoryMap.lookup (spaces.getD i AddressSpace.init).objects mo.id =
      some (mo, r))
    (hinv : CowInv h spaces)
    (j : Nat) (hj : j < spaces.length) (hne : j ≠ i) (oid : Nat) :
    AddressSpace.view (spaces.getD j AddressSpace.init)
      ((spaces.getD i AddressSpace.init).writeObject h mo r bytes).1 oid =
    AddressSpace.view (spaces.getD j AddressSpace.init) h oid := by
  obtain ⟨h1, h2, h3⟩ := hinv
  have hAmem : spaces.getD i AddressSpace.init ∈ spaces :=
    listGetD_mem spaces i _ hi
  have hmem_mo : (mo, r) ∈ (spaces.getD i AddressSpace.init).objects :=
    memoryMap_lookup_mem _ _ _ hb
  unfold AddressSpace.view
  cases hl : MemoryMap.lookup (spaces.getD j AddressSpace.init).objects oid with
  | none => rfl
  | some p =>
    have hpmem : p ∈ (spaces.getD j AddressSpace.init).objects :=
      memoryMap_lookup_mem _ _ _ hl
    have hplt : p.2 < h.length := h1 _ (listGetD_mem spaces j _ hj) p hpmem
    suffices hsuff : Heap.get ((spaces.getD i AddressSpace.init).writeObject
        h mo r bytes).1 p.2 = Heap.get h p.2 by
      exact congrArg (fun os => some os.bytes) hsuff
    by_cases hk : (spaces.getD i AddressSpace.init).cowKey =
        (Heap.get h r).copyOnWriteOwner
    · rw [writeObject_owned_eq _ _ _ _ _ hk]
      have hpr : p.2 ≠ r := by
        intro hpr
        refine h3 i hi j hj (fun hc => hne hc.symm) (mo, r) hmem_mo p hpmem
          hpr.symm ?_
        exact hk.symm
      unfold Heap.get Heap.set
      exact listGetD_set_ne _ _ _ _ _ hpr
    · rw [writeObject_unowned_eq _ _ _ _ _ hk]
      unfold Heap.get
      exact listGetD_append_lt _ _ _ _ hplt

/-- The backward walk as the specification words it: visit the objects
before the start point in reverse order; a `mayBeTrue(bounds_check)` hit
returns the object, and otherwise `mustBeTrue(offset >= base)` decides
whether the backward walk stops. -/
def backWalkSpec (solver : Solver) (cs : List Expr) (p : KValue) :
    List ObjectPair → ScanResult
  | [] => .notFound
  | e :: rest =>
    match solver.mayBeTrue cs (e.1.getBoundsCheckPointer p) with
    | none => .failed
    | some true => .found e
    | some false =>
      match solver.mustBeTrue cs (.uge p.getOffset e.1.getBaseExpr) with
      | none => .failed
      | some true => .notFound
      | some false => backWalkSpec solver cs p rest

/-- The forward walk as the specification words it: from the start point
onward, `mustBeTrue(offset < base)` stops the walk and a
`mayBeTrue(bounds_check)` hit returns the object. -/
def fwdWalkSpec (solver : Solver) (cs : List Expr) (p : KValue) :
    List ObjectPair → ScanResult
  | [] => .notFound
  | e :: rest =>
    match solver.mustBeTrue cs (.ult p.getOffset e.1.getBaseExpr) with
    | none => .failed
    | some true => .notFound
    | some false =>
      match solver.mayBeTrue cs (e.1.getBoundsCheckPointer p) with
      | none => .failed
      | some true => .found e
      | some false => fwdWalkSpec solver cs p rest

/-- The claim's two-phase scan, assembled from the two walks: backward over
the reversed prefix before the start point, then forward from the start
point; a hit resolves, a double miss reports no resolution, and a failed
query aborts. -/
def resolveOneScanSpec (solver : Solver) (cs : List Expr) (m : MemoryMap)
    (p : KValue) (start : Nat) : ResolveOneReturn :=
  match backWalkSpec solver cs p ((m.take start).reverse) with
  | .failed => ⟨false, none, none⟩
  | .found pair => ⟨true, some true, some pair⟩
  | .notFound =>
    match fwdWalkSpec solver cs p (m.drop start) with
    | .failed => ⟨false, none, none⟩
    | .found pair => ⟨true, some true, some pair⟩
    | .notFound => ⟨true, some false, none⟩

theorem upperBound_le (m : MemoryMap) (i : Nat) :
    MemoryMap.upperBound m i ≤ m.length := by
  induction m with
  | nil => simp [MemoryMap.upperBound]
  | cons p rest ih =>
    unfold MemoryMap.upperBound
    split_ifs <;> simp [ih] <;> omega

theorem upperBound_fresh (m : MemoryMap) (hackId : Nat)
    (hfresh : ∀ q ∈ m, q.1.id < hackId) :
    MemoryMap.upperBound m hackId = m.length := by
  induction m with
  | nil => rfl
  | cons p rest ih =>
    unfold MemoryMap.upperBound
    rw [if_neg (by have := hfresh p (by simp); omega)]
    rw [ih (fun q hq => hfresh q (by simp [hq]))]
    rfl

theorem scanBackSrc_eq_spec (solver : Solver) (cs : List Expr) (m : MemoryMap)
    (p : KValue) :
    ∀ pos, pos ≤ m.length →
    scanBackSrc solver cs m p pos = backWalkSpec solver cs p ((m.take pos).reverse) := by
  intro pos
  induction pos with
  | zero => intro _; rfl
  | succ pos ih =>
    intro hle
    have hpos : pos < m.length := hle
    have hget : m.get? pos = some (m.get ⟨pos, hpos⟩) := List.get?_eq_get hpos
    have htake : (m.take (pos + 1)).reverse =
        m.get ⟨pos, hpos⟩ :: (m.take pos).reverse := by
      rw [List.take_succ]
      rw [List.getElem?_eq_getElem hpos]
      simp [List.reverse_append]
    unfold scanBackSrc
    rw [hget]
    dsimp only
    rw [ih (Nat.le_of_lt hpos), htake]
    rfl

theorem scanFwdSrc_eq_spec (solver : Solver) (cs : List Expr) (m : MemoryMap)
    (p : KValue) :
    ∀ k pos, m.length - pos = k →
    scanFwdSrc solver cs m p pos = fwdWalkSpec solver cs p (m.drop pos) := by
  intro k
  induction k with
  | zero =>
    intro pos hk
    have hge : ¬ pos < m.length := by omega
    unfold scanFwdSrc
    rw [dif_neg hge, List.drop_eq_nil_of_le (by omega)]
    rfl
  | succ k ih =>
    intro pos hk
    have hpos : pos < m.length := by omega
    have hdrop : m.drop pos = m.get ⟨pos, hpos⟩ :: m.drop (pos + 1) :=
      (List.get_cons_drop m ⟨pos, hpos⟩).symm
    unfold scanFwdSrc
    rw [dif_pos hpos]
    dsimp only
    rw [ih (pos + 1) (by omega), hdrop]
    rfl

/-- C3: for a pointer whose symbolic segment concretizes to zero,
`resolveOne` performs exactly the two-phase scan the specification
describes — the backward walk over the ordered objects map before
`upper_bound` of the probe key, then the forward walk from that start
point, reporting no resolution when neither walk hits — and for a fresh
probe key the start point is the end of the map. -/
theorem resolveOne_symbolic_zero_two_phase_scan
    (as : AddressSpace) (solver : Solver) (cs : List Expr) (p : KValue)
    (hackId : Nat)
    (hnc : p.isConstant = false)
    (hsym : p.pointerSegment.isConst = false)
    (hzero : solver.getValue cs p.pointerSegment = some 0) :
    as.resolveOne solver cs p hackId =
      resolveOneScanSpec solver cs as.objects p
        (MemoryMap.upperBound as.objects hackId) ∧
    ((∀ q ∈ as.objects, q.1.id < hackId) →
      MemoryMap.upperBound as.objects hackId = as.objects.length) := by
  constructor
  · unfold AddressSpace.resolveOne
    rw [if_neg (by simp [hnc])]
    have hseg : (match p.pointerSegment with
        | Expr.const s => some s
        | _ => solver.getValue cs p.pointerSegment) = some 0 := by
      cases hm : p.pointerSegment <;> simp_all [Expr.isConst]
    rw [hseg]
    dsimp only
    rw [if_neg (by simp)]
    rw [scanBackSrc_eq_spec solver cs as.objects p _ (upperBound_le _ _),
      scanFwdSrc_eq_spec solver cs as.objects p _ _ rfl]
    rfl
  · exact upperBound_fresh as.objects hackId

/-- A solver for the C3 witness: segments concretize to zero and every
bounds check may be true. -/
def alwaysInBoundsSolver : Solver :=
  ⟨fun _ _ => some .unknown, fun _ _ => some true, fun _ _ => some false,
   fun _ _ => some 0⟩

/-- A heap-allocated object and a state binding it, for the witnesses. -/
def sampleMO : MemoryObject := ⟨0, 7, 0, 8, false, false, false⟩

/-- An address space binding `sampleMO` under segment 7. -/
def sampleAS : AddressSpace := ⟨1, [(sampleMO, 0)], [(7, sampleMO)], []⟩

/-- A state whose address space binds `sampleMO` under segment 7. -/
def sampleHeapState : ExecutionState :=
  ⟨[], 5, 3, 0, 0, false, false, sampleAS, []⟩

/-- Witness for C3: one bound object, fresh probe key 5; the backward walk
hits it immediately. -/
theorem resolveOne_symbolic_zero_two_phase_scan_witness :
    sampleAS.resolveOne alwaysInBoundsSolver [] ⟨.var 0, .var 1⟩ 5 =
      resolveOneScanSpec alwaysInBoundsSolver [] sampleAS.objects
        ⟨.var 0, .var 1⟩ (MemoryMap.upperBound sampleAS.objects 5) ∧
    ((∀ q ∈ sampleAS.objects, q.1.id < 5) →
      MemoryMap.upperBound sampleAS.objects 5 = sampleAS.objects.length) :=
  resolveOne_symbolic_zero_two_phase_scan sampleAS alwaysInBoundsSolver []
    ⟨.var 0, .var 1⟩ 5 rfl rfl rfl

/-- Witness for C6: freeing segment 7 twice in the sample state. -/
theorem double_free_terminates_ptr_witness :
    ∃ st1,
      Executor.executeFree plainForkConfig sampleTimeoutSolver sampleHeapState
        ⟨.const 7, .const sampleMO.address⟩ (some 2) 0 =
        [.live st1] ∧
      st1 = Executor.bindLocal 2
        { sampleHeapState with
            addressSpace := sampleHeapState.addressSpace.unbindObject sampleMO }
        nullPointerKValue ∧
      SegmentMap.lookup st1.addressSpace.segmentMap 7 = none ∧
      st1.getLocal 2 = some nullPointerKValue ∧
      Executor.executeFree plainForkConfig sampleTimeoutSolver st1
        ⟨.const 7, .const sampleMO.address⟩ (some 2) 0 =
        [.errorTerm st1 .ptr "memory error: invalid pointer: free"] :=
  double_free_terminates_ptr plainForkConfig sampleTimeoutSolver sampleHeapState
    sampleMO 0 7 2 0 0 sampleTimeoutSolver_wf (by decide) rfl rfl rfl
    (by decide) (by decide)

/-- C2: copy-on-write integrity.  `getWriteable` returns the object state
itself exactly when its owner equals the space's `cowKey`; otherwise it
allocates a copy owned by `cowKey`, replaces the binding for the
MemoryObject and leaves the original state untouched.  Cloning an address
space gives source and clone the same strictly increased `cowKey`, so
neither owns previously bound objects.  The sharing invariant holds
initially, is preserved by every sequence of fork/write/bind steps, and
under it a write in one state never changes the bytes seen by any other
state. -/
theorem cow_integrity :
    (∀ (as : AddressSpace) (h : Heap) (mo : MemoryObject) (r : ObjRef),
      as.cowKey = (Heap.get h r).copyOnWriteOwner →
      as.getWriteable h mo r = (h, as, r)) ∧
    (∀ (as : AddressSpace) (h : Heap) (mo : MemoryObject) (r : ObjRef),
      as.cowKey ≠ (Heap.get h r).copyOnWriteOwner → r < h.length →
      as.getWriteable h mo r =
        (h ++ [{ Heap.get h r with copyOnWriteOwner := as.cowKey }],
         { as with objects := MemoryMap.replace as.objects (mo, h.length) },
         h.length) ∧
      Heap.get (as.getWriteable h mo r).1 r = Heap.get h r) ∧
    (∀ b : AddressSpace,
      b.clone.1.cowKey = b.cowKey + 1 ∧ b.clone.2.cowKey = b.cowKey + 1 ∧
      (∀ K, K ≤ b.cowKey → K ≠ b.clone.1.cowKey ∧ K ≠ b.clone.2.cowKey)) ∧
    CowInv [] [AddressSpace.init] ∧
    (∀ w w' : CowWorld, CowInv w.1 w.2 → Relation.ReflTransGen CowStep w w' →
      CowInv w'.1 w'.2) ∧
    (∀ (h : Heap) (spaces : List AddressSpace) (i : Nat), i < spaces.length →
      ∀ (mo : MemoryObject) (r : ObjRef) (bytes : List Nat),
      MemoryMap.lookup (spaces.getD i AddressSpace.init).objects mo.id =
        some (mo, r) →
      CowInv h spaces →
      ∀ j, j < spaces.length → j ≠ i → ∀ oid,
        AddressSpace.view (spaces.getD j AddressSpace.init)
          ((spaces.getD i AddressSpace.init).writeObject h mo r bytes).1 oid =
        AddressSpace.view (spaces.getD j AddressSpace.init) h oid) := by
  refine ⟨?_, ?_, ?_, ?_, ?_, ?_⟩
  · intro as h mo r hk
    unfold AddressSpace.getWriteable
    rw [if_pos hk]
  · intro as h mo r hk hr
    have heq : as.getWriteable h mo r =
        (h ++ [{ Heap.get h r with copyOnWriteOwner := as.cowKey }],
         { as with objects := MemoryMap.replace as.objects (mo, h.length) },
         h.length) := by
      unfold AddressSpace.getWriteable Heap.alloc
      rw [if_neg hk]
    refine ⟨heq, ?_⟩
    rw [heq]
    unfold Heap.get
    exact listGetD_append_lt _ _ _ _ hr
  · intro b
    refine ⟨rfl, rfl, ?_⟩
    intro K hK
    constructor
    · show K ≠ b.cowKey + 1
      omega
    · show K ≠ b.cowKey + 1
      omega
  · refine ⟨?_, ?_, ?_⟩ <;> simp [AddressSpace.init, spAt]
  · intro w w' hinv hsteps
    exact cowSteps_preserve w w' hsteps hinv
  · intro h spaces i hi mo r bytes hb hinv j hj hne oid
    exact cow_write_frame h spaces i hi mo r bytes hb hinv j hj hne oid

/-- Two sibling spaces sharing one object state, for the C2 witness. -/
def cowSampleSpaces : List AddressSpace :=
  [⟨2, [(sampleMO, 0)], [(7, sampleMO)], []⟩,
   ⟨2, [(sampleMO, 0)], [(7, sampleMO)], []⟩]

/-- A one-cell heap whose object is owned by neither sibling. -/
def cowSampleHeap : Heap := [⟨1, false, [9]⟩]

/-- Witness for C2: a concrete owned `getWriteable`, the preserved initial
invariant, and a concrete cross-state write frame. -/
theorem cow_integrity_witness :
    (AddressSpace.mk 1 [] [] []).getWriteable [⟨1, false, []⟩] sampleMO 0 =
      ([⟨1, false, []⟩], AddressSpace.mk 1 [] [] [], 0) ∧
    CowInv [] [AddressSpace.init] ∧
    AddressSpace.view (cowSampleSpaces.getD 1 AddressSpace.init)
      ((cowSampleSpaces.getD 0 AddressSpace.init).writeObject cowSampleHeap
        sampleMO 0 [4, 2]).1 0 =
    AddressSpace.view (cowSampleSpaces.getD 1 AddressSpace.init)
      cowSampleHeap 0 :=
  ⟨cow_integrity.1 (AddressSpace.mk 1 [] [] []) [⟨1, false, []⟩] sampleMO 0
      (by decide),
   cow_integrity.2.2.2.2.1 ([], [AddressSpace.init]) ([], [AddressSpace.init])
      (by decide) Relation.ReflTransGen.refl,
   cow_integrity.2.2.2.2.2 cowSampleHeap cowSampleSpaces 0 (by decide)
      sampleMO 0 [4, 2] (by decide) (by decide) 1 (by decide) (by decide) 0⟩

/-- Witness for C8 at a concrete state and a possibly-null pointer. -/
theorem free_null_branch_silent_witness :
    ∃ tS rest,
      Executor.executeFree plainForkConfig unknownOnSymbolicSolver sampleState
          ⟨.const 0, .var 0⟩ (some 2) 0 =
        Executor.ExecOutcome.live tS :: rest ∧
      tS.addressSpace.objects = sampleState.addressSpace.objects ∧
      tS.addressSpace.segmentMap = sampleState.addressSpace.segmentMap ∧
      tS.getLocal 2 = some nullPointerKValue ∧
      tS.constraints = sampleState.constraints ++
        [KValue.createIsZero ⟨.const 0, .var 0⟩] :=
  free_null_branch_silent plainForkConfig unknownOnSymbolicSolver sampleState
    ⟨.const 0, .var 0⟩ 2 0 unknownOnSymbolicSolver_wf rfl rfl rfl rfl rfl rfl
    rfl rfl rfl rfl

/-! ### C4: the symbolic Switch handler -/

theorem exprOrderInsert_mem_sub :
    ∀ (m : List Executor.SwitchCase) (c x : Executor.SwitchCase),
      x ∈ Executor.exprOrderInsert m c → x ∈ m ∨ x = c := by
  intro m
  induction m with
  | nil =>
    intro c x hx
    simp [Executor.exprOrderInsert] at hx
    exact Or.inr hx
  | cons p rest ih =>
    intro c x hx
    unfold Executor.exprOrderInsert at hx
    split_ifs at hx with h1 h2
    · rcases List.mem_cons.mp hx with h | h
      · exact Or.inr h
      · exact Or.inl h
    · exact Or.inl hx
    · rcases List.mem_cons.mp hx with h | h
      · exact Or.inl (List.mem_cons.mpr (Or.inl h))
      · rcases ih c x h with h3 | h3
        · exact Or.inl (List.mem_cons.mpr (Or.inr h3))
        · exact Or.inr h3

theorem exprOrderInsert_mem_of_mem :
    ∀ (m : List Executor.SwitchCase) (c x : Executor.SwitchCase),
      x ∈ m → x ∈ Executor.exprOrderInsert m c := by
  intro m
  induction m with
  | nil => intro c x hx; simp at hx
  | cons p rest ih =>
    intro c x hx
    unfold Executor.exprOrderInsert
    split_ifs with h1 h2
    · exact List.mem_cons_of_mem c hx
    · exact hx
    · rcases List.mem_cons.mp hx with h | h
      · exact List.mem_cons.mpr (Or.inl h)
      · exact List.mem_cons.mpr (Or.inr (ih c x h))

theorem exprOrderInsert_self_mem :
    ∀ (m : List Executor.SwitchCase) (c : Executor.SwitchCase),
      (∀ y ∈ m, y.value ≠ c.value) → c ∈ Executor.exprOrderInsert m c := by
  intro m
  induction m with
  | nil => intro c _; simp [Executor.exprOrderInsert]
  | cons p rest ih =>
    intro c hy
    unfold Executor.exprOrderInsert
    split_ifs with h1 h2
    · exact List.mem_cons_self _ _
    · exact absurd h2.symm (hy p (List.mem_cons_self p rest))
    · exact List.mem_cons_of_mem p
        (ih c (fun y hym => hy y (List.mem_cons_of_mem p hym)))

theorem exprOrderInsert_sorted :
    ∀ (m : List Executor.SwitchCase) (c : Executor.SwitchCase),
      List.Pairwise (fun a b => a.value < b.value) m →
      List.Pairwise (fun a b => a.value < b.value)
        (Executor.exprOrderInsert m c) := by
  intro m
  induction m with
  | nil => intro c _; simp [Executor.exprOrderInsert]
  | cons p rest ih =>
    intro c hs
    rw [List.pairwise_cons] at hs
    obtain ⟨hp, hrest⟩ := hs
    unfold Executor.exprOrderInsert
    split_ifs with h1 h2
    · refine List.Pairwise.cons ?_ (List.Pairwise.cons hp hrest)
      intro y hy
      rcases List.mem_cons.mp hy with h | h
      · rw [h]; exact h1
      · exact Nat.lt_trans h1 (hp y h)
    · exact List.Pairwise.cons hp hrest
    · refine List.Pairwise.cons ?_ (ih c hrest)
      intro y hy
      rcases exprOrderInsert_mem_sub rest c y hy with h | h
      · exact hp y h
      · rw [h]; omega

theorem exprOrder_foldl_sorted :
    ∀ (cases acc : List Executor.SwitchCase),
      List.Pairwise (fun a b => a.value < b.value) acc →
      List.Pairwise (fun a b => a.value < b.value)
        (cases.foldl Executor.exprOrderInsert acc) := by
  intro cases
  induction cases with
  | nil => intro acc h; exact h
  | cons c rest ih =>
    intro acc h
    rw [List.foldl_cons]
    exact ih _ (exprOrderInsert_sorted acc c h)

theorem exprOrder_sorted (cases : List Executor.SwitchCase) :
    List.Pairwise (fun a b => a.value < b.value) (Executor.exprOrder cases) :=
  exprOrder_foldl_sorted cases [] List.Pairwise.nil

theorem exprOrder_foldl_mem_sub :
    ∀ (cases acc : List Executor.SwitchCase) (x : Executor.SwitchCase),
      x ∈ cases.foldl Executor.exprOrderInsert acc → x ∈ acc ∨ x ∈ cases := by
  intro cases
  induction cases with
  | nil => intro acc x h; exact Or.inl h
  | cons c rest ih =>
    intro acc x h
    rw [List.foldl_cons] at h
    rcases ih (Executor.exprOrderInsert acc c) x h with h2 | h2
    · rcases exprOrderInsert_mem_sub acc c x h2 with h3 | h3
      · exact Or.inl h3
      · exact Or.inr (List.mem_cons.mpr (Or.inl h3))
    · exact Or.inr (List.mem_cons_of_mem c h2)

theorem exprOrder_foldl_complete :
    ∀ (cases acc : List Executor.SwitchCase),
      (∀ x ∈ cases, ∀ y ∈ acc, x.value ≠ y.value) →
      List.Pairwise (fun a b => a.value ≠ b.value) cases →
      ∀ x, (x ∈ acc ∨ x ∈ cases) →
        x ∈ cases.foldl Executor.exprOrderInsert acc := by
  intro cases
  induction cases with
  | nil =>
    intro acc _ _ x hx
    rcases hx with h | h
    · exact h
    · simp at h
  | cons c rest ih =>
    intro acc hfresh hdist x hx
    rw [List.pairwise_cons] at hdist
    obtain ⟨hdc, hdrest⟩ := hdist
    rw [List.foldl_cons]
    have hfresh2 : ∀ a ∈ rest, ∀ y ∈ Executor.exprOrderInsert acc c,
        a.value ≠ y.value := by
      intro a ha y hy
      rcases exprOrderInsert_mem_sub acc c y hy with h | h
      · exact hfresh a (List.mem_cons_of_mem c ha) y h
      · rw [h]; exact (hdc a ha).symm
    apply ih (Executor.exprOrderInsert acc c) hfresh2 hdrest
    rcases hx with h | h
    · exact Or.inl (exprOrderInsert_mem_of_mem acc c x h)
    · rcases List.mem_cons.mp h with h2 | h2
      · rw [h2]
        exact Or.inl (exprOrderInsert_self_mem acc c
          (fun y hy => (hfresh c (List.mem_cons_self c rest) y hy).symm))
      · exact Or.inr h2

theorem exprOrder_mem (cases : List Executor.SwitchCase)
    (hdist : List.Pairwise (fun a b => a.value ≠ b.value) cases)
    (x : Executor.SwitchCase) : x ∈ Executor.exprOrder cases ↔ x ∈ cases := by
  constructor
  · intro h
    rcases exprOrder_foldl_mem_sub cases [] x h with h2 | h2
    · simp at h2
    · exact h2
  · intro h
    exact exprOrder_foldl_complete cases [] (by intro a _ y hy; simp at hy)
      hdist x (Or.inr h)

theorem btLookup_cons (q : Nat × Expr) (bt : List (Nat × Expr)) (t : Nat) :
    Executor.btLookup (q :: bt) t =
      if q.1 = t then some q.2 else Executor.btLookup bt t := by
  by_cases h : q.1 = t
  · simp [Executor.btLookup, List.find?_cons, h]
  · simp [Executor.btLookup, List.find?_cons, h]

theorem btLookup_update_self :
    ∀ (bt : List (Nat × Expr)) (t : Nat) (e : Expr),
      (Executor.btLookup bt t).isSome = true →
      Executor.btLookup (Executor.btUpdate bt t e) t = some e := by
  intro bt
  induction bt with
  | nil => intro t e h; simp [Executor.btLookup] at h
  | cons q rest ih =>
    intro t e h
    simp only [Executor.btUpdate, List.map_cons]
    by_cases hq : q.1 = t
    · rw [if_pos hq, btLookup_cons, if_pos rfl]
    · rw [if_neg hq, btLookup_cons, if_neg hq]
      rw [btLookup_cons, if_neg hq] at h
      exact ih t e h

theorem btLookup_update_ne :
    ∀ (bt : List (Nat × Expr)) (t : Nat) (e : Expr) (u : Nat), u ≠ t →
      Executor.btLookup (Executor.btUpdate bt t e) u = Executor.btLookup bt u := by
  intro bt
  induction bt with
  | nil => intro t e u _; rfl
  | cons q rest ih =>
    intro t e u hu
    simp only [Executor.btUpdate, List.map_cons]
    by_cases hq : q.1 = t
    · rw [if_pos hq, btLookup_cons, btLookup_cons]
      rw [if_neg (fun h => hu h.symm), if_neg (by rw [hq]; exact fun h => hu h.symm)]
      exact ih t e u hu
    · rw [if_neg hq, btLookup_cons, btLookup_cons]
      by_cases hqu : q.1 = u
      · rw [if_pos hqu, if_pos hqu]
      · rw [if_neg hqu, if_neg hqu]
        exact ih t e u hu

theorem btLookup_append_single :
    ∀ (bt : List (Nat × Expr)) (a : Nat) (v : Expr) (t : Nat),
      Executor.btLookup (bt ++ [(a, v)]) t =
        match Executor.btLookup bt t with
        | some e => some e
        | none => if t = a then some v else none := by
  intro bt
  induction bt with
  | nil =>
    intro a v t
    show Executor.btLookup [(a, v)] t = _
    rw [btLookup_cons]
    by_cases h : a = t
    · rw [if_pos h, if_pos h.symm]
      rfl
    · rw [if_neg h, if_neg (fun h2 => h h2.symm)]
      rfl
  | cons q rest ih =>
    intro a v t
    rw [List.cons_append, btLookup_cons, btLookup_cons]
    by_cases h : q.1 = t
    · rw [if_pos h, if_pos h]
    · rw [if_neg h, if_neg h]
      exact ih a v t

theorem createEq_not_const_left (a b : Expr) (h : a.isConst = false) :
    (createEq a b).isConst = false := by
  unfold createEq
  cases a <;> cases b <;> simp_all [Expr.isConst]

theorem createOr_not_const (a b : Expr) (ha : a.isConst = false)
    (hb : b.isConst = false) : (createOr a b).isConst = false := by
  unfold createOr
  cases a <;> cases b <;> simp_all [Expr.isConst]

theorem createOr_const_zero_not_const (a : Expr) (ha : a.isConst = false) :
    (createOr a (.const 0)).isConst = false := by
  cases a <;> simp_all [createOr, Expr.isConst]

/-- One case of the switch is feasible for target `t`: it goes to `t`
(`t` not the default block) and the solver answered that the match may be
true. -/
def caseFeasible (solver : Solver) (cs : List Expr) (cond : Expr) (dd t : Nat)
    (c : Executor.SwitchCase) : Prop :=
  c.target = t ∧ t ≠ dd ∧
    solver.mayBeTrue cs (createEq cond (.const c.value)) = some true

/-- The disjunction claimed for target `t` over the case list `l`: some
feasible case for `t` matches under `σ`. -/
def feasibleAt (solver : Solver) (cs : List Expr) (cond : Expr) (dd t : Nat)
    (l : List Executor.SwitchCase) (σ : Nat → Nat) : Prop :=
  ∃ c ∈ l, caseFeasible solver cs cond dd t c ∧
    (createEq cond (.const c.value)).holds σ

/-- Target `t` has at least one feasible case in `l`. -/
def hasFeasible (solver : Solver) (cs : List Expr) (cond : Expr) (dd t : Nat)
    (l : List Executor.SwitchCase) : Prop :=
  ∃ c ∈ l, caseFeasible solver cs cond dd t c

theorem feasibleAt_cons (solver : Solver) (cs : List Expr) (cond : Expr)
    (dd t : Nat) (c : Executor.SwitchCase) (l : List Executor.SwitchCase) (σ : Nat → Nat) :
    feasibleAt solver cs cond dd t (c :: l) σ ↔
      ((caseFeasible solver cs cond dd t c ∧
          (createEq cond (.const c.value)).holds σ) ∨
        feasibleAt solver cs cond dd t l σ) := by
  simp [feasibleAt, List.exists_mem_cons]

theorem hasFeasible_cons (solver : Solver) (cs : List Expr) (cond : Expr)
    (dd t : Nat) (c : Executor.SwitchCase) (l : List Executor.SwitchCase) :
    hasFeasible solver cs cond dd t (c :: l) ↔
      (caseFeasible solver cs cond dd t c ∨ hasFeasible solver cs cond dd t l) := by
  simp [hasFeasible, List.exists_mem_cons]

theorem caseFeasible_not_dd (solver : Solver) (cs : List Expr) (cond : Expr)
    (dd t : Nat) (c : Executor.SwitchCase) (hdd : c.target = dd) :
    ¬ caseFeasible solver cs cond dd t c := by
  intro hc
  obtain ⟨h1, h2, _⟩ := hc
  exact h2 (by rw [← h1]; exact hdd)

theorem caseFeasible_not_false (solver : Solver) (cs : List Expr) (cond : Expr)
    (dd t : Nat) (c : Executor.SwitchCase)
    (hmb : solver.mayBeTrue cs (createEq cond (.const c.value)) = some false) :
    ¬ caseFeasible solver cs cond dd t c := by
  intro hc
  obtain ⟨_, _, h3⟩ := hc
  rw [h3] at hmb
  exact absurd hmb (by simp)

theorem caseFeasible_not_target (solver : Solver) (cs : List Expr) (cond : Expr)
    (dd t : Nat) (c : Executor.SwitchCase) (hne : c.target ≠ t) :
    ¬ caseFeasible solver cs cond dd t c := fun hc => hne hc.1

theorem switchCasesLoop_nil (solver : Solver) (cs : List Expr) (cond : Expr)
    (dd : Nat) (acc : Expr × List (Nat × Expr) × List Nat) :
    Executor.switchCasesLoop solver cs cond dd [] acc = some acc := rfl

theorem switchCasesLoop_cons (solver : Solver) (cs : List Expr) (cond : Expr)
    (dd : Nat) (c : Executor.SwitchCase) (rest : List Executor.SwitchCase)
    (dv : Expr) (bt : List (Nat × Expr)) (ord : List Nat) :
    Executor.switchCasesLoop solver cs cond dd (c :: rest) (dv, bt, ord) =
      if c.target = dd then
        Executor.switchCasesLoop solver cs cond dd rest (dv, bt, ord)
      else
        match solver.mayBeTrue cs (createEq cond (.const c.value)) with
        | none => none
        | some false =>
          Executor.switchCasesLoop solver cs cond dd rest
            (createAnd dv (createIsZero (createEq cond (.const c.value))), bt, ord)
        | some true =>
          match Executor.btLookup bt c.target with
          | some old =>
            Executor.switchCasesLoop solver cs cond dd rest
              (createAnd dv (createIsZero (createEq cond (.const c.value))),
               Executor.btUpdate bt c.target
                 (createOr (createEq cond (.const c.value)) old), ord)
          | none =>
            Executor.switchCasesLoop solver cs cond dd rest
              (createAnd dv (createIsZero (createEq cond (.const c.value))),
               bt ++ [(c.target,
                 createOr (createEq cond (.const c.value)) (.const 0))],
               ord ++ [c.target]) := rfl

/-- The evolving default predicate: after the loop it holds exactly when
the incoming predicate held and no processed non-default case matches. -/
theorem switchCasesLoop_default_sem (solver : Solver) (cs : List Expr)
    (cond : Expr) (dd : Nat) :
    ∀ (l : List Executor.SwitchCase) (dv : Expr) (bt : List (Nat × Expr))
      (ord : List Nat) (dv2 : Expr) (bt2 : List (Nat × Expr)) (ord2 : List Nat),
      Executor.switchCasesLoop solver cs cond dd l (dv, bt, ord) =
        some (dv2, bt2, ord2) →
      ∀ σ, dv2.holds σ ↔ (dv.holds σ ∧ ∀ c ∈ l, c.target ≠ dd →
        ¬ (createEq cond (.const c.value)).holds σ) := by
  intro l
  induction l with
  | nil =>
    intro dv bt ord dv2 bt2 ord2 h σ
    simp only [switchCasesLoop_nil, Option.some.injEq, Prod.mk.injEq] at h
    obtain ⟨h1, _, _⟩ := h
    subst h1
    simp
  | cons c rest ih =>
    intro dv bt ord dv2 bt2 ord2 h σ
    rw [switchCasesLoop_cons] at h
    by_cases hdd : c.target = dd
    · rw [if_pos hdd] at h
      rw [ih dv bt ord dv2 bt2 ord2 h σ]
      simp only [List.forall_mem_cons]
      constructor
      · intro hx
        exact ⟨hx.1, fun hne => absurd hdd hne, hx.2⟩
      · intro hx
        exact ⟨hx.1, hx.2.2⟩
    · rw [if_neg hdd] at h
      have key : ∀ (bt0 : List (Nat × Expr)) (ord0 : List Nat),
          Executor.switchCasesLoop solver cs cond dd rest
            (createAnd dv (createIsZero (createEq cond (.const c.value))),
             bt0, ord0) = some (dv2, bt2, ord2) →
          (dv2.holds σ ↔ (dv.holds σ ∧ ∀ c2 ∈ c :: rest, c2.target ≠ dd →
            ¬ (createEq cond (.const c2.value)).holds σ)) := by
        intro bt0 ord0 h0
        rw [ih _ bt0 ord0 dv2 bt2 ord2 h0 σ, createAnd_holds, createIsZero_holds]
        simp only [List.forall_mem_cons, Expr.holds, ne_eq, not_not]
        tauto
      rcases hmb : solver.mayBeTrue cs (createEq cond (.const c.value)) with _ | b
      · simp only [hmb] at h
        exact Option.noConfusion h
      · cases b
        · simp only [hmb] at h
          exact key bt ord h
        · rcases hbl : Executor.btLookup bt c.target with _ | old
          · simp only [hmb, hbl] at h
            exact key _ _ h
          · simp only [hmb, hbl] at h
            exact key _ _ h

/-- The two branch-target table clauses the loop maintains: entries that
existed before grow by the feasible matches of the processed cases, and
fresh targets appear exactly when they gain a feasible case, carrying
exactly the disjunction of their feasible matches. -/
def targetsSemOk (solver : Solver) (cs : List Expr) (cond : Expr) (dd : Nat)
    (l : List Executor.SwitchCase) (bt bt2 : List (Nat × Expr)) : Prop :=
  (∀ t e, Executor.btLookup bt t = some e → ∃ e2,
      Executor.btLookup bt2 t = some e2 ∧
      ∀ σ, (e2.holds σ ↔ (e.holds σ ∨ feasibleAt solver cs cond dd t l σ))) ∧
  (∀ t, Executor.btLookup bt t = none →
    ((¬ hasFeasible solver cs cond dd t l) → Executor.btLookup bt2 t = none) ∧
    (hasFeasible solver cs cond dd t l → ∃ e2,
      Executor.btLookup bt2 t = some e2 ∧
      ∀ σ, (e2.holds σ ↔ feasibleAt solver cs cond dd t l σ)))

theorem targetsSemOk_skip (solver : Solver) (cs : List Expr) (cond : Expr)
    (dd : Nat) (c : Executor.SwitchCase) (rest : List Executor.SwitchCase)
    (bt bt2 : List (Nat × Expr))
    (hc : ∀ t, ¬ caseFeasible solver cs cond dd t c)
    (H : targetsSemOk solver cs cond dd rest bt bt2) :
    targetsSemOk solver cs cond dd (c :: rest) bt bt2 := by
  obtain ⟨H2, H3⟩ := H
  constructor
  · intro t e he
    obtain ⟨e2, he2, hsem⟩ := H2 t e he
    refine ⟨e2, he2, fun σ => ?_⟩
    rw [hsem σ, feasibleAt_cons]
    have := hc t
    tauto
  · intro t h0
    obtain ⟨hn, hs⟩ := H3 t h0
    constructor
    · intro hnf
      exact hn (fun hf => hnf
        ((hasFeasible_cons solver cs cond dd t c rest).mpr (Or.inr hf)))
    · intro hf
      rcases (hasFeasible_cons solver cs cond dd t c rest).mp hf with h4 | h4
      · exact absurd h4 (hc t)
      · obtain ⟨e2, he2, hsem⟩ := hs h4
        refine ⟨e2, he2, fun σ => ?_⟩
        rw [hsem σ, feasibleAt_cons]
        have := hc t
        tauto

theorem switchCasesLoop_targets_sem (solver : Solver) (cs : List Expr)
    (cond : Expr) (dd : Nat) :
    ∀ (l : List Executor.SwitchCase) (dv : Expr) (bt : List (Nat × Expr))
      (ord : List Nat) (dv2 : Expr) (bt2 : List (Nat × Expr)) (ord2 : List Nat),
      Executor.switchCasesLoop solver cs cond dd l (dv, bt, ord) =
        some (dv2, bt2, ord2) →
      targetsSemOk solver cs cond dd l bt bt2 := by
  intro l
  induction l with
  | nil =>
    intro dv bt ord dv2 bt2 ord2 h
    simp only [switchCasesLoop_nil, Option.some.injEq, Prod.mk.injEq] at h
    obtain ⟨_, h2, _⟩ := h
    subst h2
    constructor
    · intro t e he
      refine ⟨e, he, fun σ => ?_⟩
      simp [feasibleAt]
    · intro t h0
      constructor
      · intro _; exact h0
      · intro hf
        simp [hasFeasible] at hf
  | cons c rest ih =>
    intro dv bt ord dv2 bt2 ord2 h
    rw [switchCasesLoop_cons] at h
    by_cases hdd : c.target = dd
    · rw [if_pos hdd] at h
      exact targetsSemOk_skip solver cs cond dd c rest bt bt2
        (fun t => caseFeasible_not_dd solver cs cond dd t c hdd)
        (ih dv bt ord dv2 bt2 ord2 h)
    · rw [if_neg hdd] at h
      rcases hmb : solver.mayBeTrue cs (createEq cond (.const c.value)) with _ | b
      · simp only [hmb] at h
        exact Option.noConfusion h
      · cases b
        · simp only [hmb] at h
          exact targetsSemOk_skip solver cs cond dd c rest bt bt2
            (fun t => caseFeasible_not_false solver cs cond dd t c hmb)
            (ih _ bt ord dv2 bt2 ord2 h)
        · rcases hbl : Executor.btLookup bt c.target with _ | old
          · -- fresh target: the entry is appended and `bbOrder` grows
            simp only [hmb, hbl] at h
            obtain ⟨ih2, ih3⟩ := ih _ _ _ dv2 bt2 ord2 h
            have hcf : caseFeasible solver cs cond dd c.target c :=
              ⟨rfl, hdd, hmb⟩
            constructor
            · intro t e he
              have ht : t ≠ c.target := by
                intro hh
                rw [hh, hbl] at he
                cases he
              have he2 : Executor.btLookup
                  (bt ++ [(c.target,
                    createOr (createEq cond (.const c.value)) (.const 0))]) t =
                  some e := by
                rw [btLookup_append_single, he]
              obtain ⟨e2, he3, hsem⟩ := ih2 t e he2
              refine ⟨e2, he3, fun σ => ?_⟩
              rw [hsem σ, feasibleAt_cons]
              have := caseFeasible_not_target solver cs cond dd t c
                (fun hh => ht hh.symm)
              tauto
            · intro t h0
              by_cases ht : t = c.target
              · have hv : Executor.btLookup
                    (bt ++ [(c.target,
                      createOr (createEq cond (.const c.value)) (.const 0))]) t =
                    some (createOr (createEq cond (.const c.value)) (.const 0)) := by
                  rw [btLookup_append_single, h0, if_pos ht]
                obtain ⟨e2, he3, hsem⟩ := ih2 t _ hv
                have hcf2 : caseFeasible solver cs cond dd t c := by
                  rw [ht]; exact hcf
                constructor
                · intro hnf
                  exact absurd ((hasFeasible_cons solver cs cond dd t c rest).mpr
                    (Or.inl hcf2)) hnf
                · intro _
                  refine ⟨e2, he3, fun σ => ?_⟩
                  rw [hsem σ, createOr_holds, feasibleAt_cons]
                  have hz : ¬ (Expr.const 0).holds σ := by
                    simp [Expr.holds, Expr.evalN]
                  tauto
              · have h0b : Executor.btLookup
                    (bt ++ [(c.target,
                      createOr (createEq cond (.const c.value)) (.const 0))]) t =
                    none := by
                  rw [btLookup_append_single, h0, if_neg ht]
                obtain ⟨hn, hs⟩ := ih3 t h0b
                have hnc : ¬ caseFeasible solver cs cond dd t c :=
                  caseFeasible_not_target solver cs cond dd t c
                    (fun hh => ht hh.symm)
                constructor
                · intro hnf
                  exact hn (fun hf => hnf
                    ((hasFeasible_cons solver cs cond dd t c rest).mpr (Or.inr hf)))
                · intro hf
                  rcases (hasFeasible_cons solver cs cond dd t c rest).mp hf
                    with h4 | h4
                  · exact absurd h4 hnc
                  · obtain ⟨e2, he3, hsem⟩ := hs h4
                    refine ⟨e2, he3, fun σ => ?_⟩
                    rw [hsem σ, feasibleAt_cons]
                    tauto
          · -- existing target: its entry grows by the new disjunct
            simp only [hmb, hbl] at h
            obtain ⟨ih2, ih3⟩ := ih _ _ _ dv2 bt2 ord2 h
            have hcf : caseFeasible solver cs cond dd c.target c :=
              ⟨rfl, hdd, hmb⟩
            constructor
            · intro t e he
              by_cases ht : t = c.target
              · have heold : e = old := by
                  rw [ht] at he
                  exact Option.some.inj (he.symm.trans hbl)
                have hup : Executor.btLookup
                    (Executor.btUpdate bt c.target
                      (createOr (createEq cond (.const c.value)) old)) t =
                    some (createOr (createEq cond (.const c.value)) old) := by
                  rw [ht]
                  exact btLookup_update_self bt c.target _ (by rw [hbl]; rfl)
                obtain ⟨e2, he3, hsem⟩ := ih2 t _ hup
                refine ⟨e2, he3, fun σ => ?_⟩
                rw [hsem σ, createOr_holds, feasibleAt_cons, heold]
                have hcf2 : caseFeasible solver cs cond dd t c := by
                  rw [ht]; exact hcf
                tauto
              · have he2 : Executor.btLookup
                    (Executor.btUpdate bt c.target
                      (createOr (createEq cond (.const c.value)) old)) t =
                    some e := by
                  rw [btLookup_update_ne bt c.target _ t ht, he]
                obtain ⟨e2, he3, hsem⟩ := ih2 t e he2
                refine ⟨e2, he3, fun σ => ?_⟩
                rw [hsem σ, feasibleAt_cons]
                have := caseFeasible_not_target solver cs cond dd t c
                  (fun hh => ht hh.symm)
                tauto
            · intro t h0
              have ht : t ≠ c.target := by
                intro hh
                rw [hh, hbl] at h0
                cases h0
              have h0b : Executor.btLookup
                  (Executor.btUpdate bt c.target
                    (createOr (createEq cond (.const c.value)) old)) t =
                  none := by
                rw [btLookup_update_ne bt c.target _ t ht, h0]
              obtain ⟨hn, hs⟩ := ih3 t h0b
              have hnc : ¬ caseFeasible solver cs cond dd t c :=
                caseFeasible_not_target solver cs cond dd t c
                  (fun hh => ht hh.symm)
              constructor
              · intro hnf
                exact hn (fun hf => hnf
                  ((hasFeasible_cons solver cs cond dd t c rest).mpr (Or.inr hf)))
              · intro hf
                rcases (hasFeasible_cons solver cs cond dd t c rest).mp hf
                  with h4 | h4
                · exact absurd h4 hnc
                · obtain ⟨e2, he3, hsem⟩ := hs h4
                  refine ⟨e2, he3, fun σ => ?_⟩
                  rw [hsem σ, feasibleAt_cons]
                  tauto

/-- The loop only appends to `bbOrder`. -/
theorem switchCasesLoop_ord_append (solver : Solver) (cs : List Expr)
    (cond : Expr) (dd : Nat) :
    ∀ (l : List Executor.SwitchCase) (dv : Expr) (bt : List (Nat × Expr))
      (ord : List Nat) (dv2 : Expr) (bt2 : List (Nat × Expr)) (ord2 : List Nat),
      Executor.switchCasesLoop solver cs cond dd l (dv, bt, ord) =
        some (dv2, bt2, ord2) →
      ∃ newts, ord2 = ord ++ newts := by
  intro l
  induction l with
  | nil =>
    intro dv bt ord dv2 bt2 ord2 h
    simp only [switchCasesLoop_nil, Option.some.injEq, Prod.mk.injEq] at h
    obtain ⟨_, _, h3⟩ := h
    subst h3
    exact ⟨[], by simp⟩
  | cons c rest ih =>
    intro dv bt ord dv2 bt2 ord2 h
    rw [switchCasesLoop_cons] at h
    by_cases hdd : c.target = dd
    · rw [if_pos hdd] at h
      exact ih dv bt ord dv2 bt2 ord2 h
    · rw [if_neg hdd] at h
      rcases hmb : solver.mayBeTrue cs (createEq cond (.const c.value)) with _ | b
      · simp only [hmb] at h
        exact Option.noConfusion h
      · cases b
        · simp only [hmb] at h
          exact ih _ bt ord dv2 bt2 ord2 h
        · rcases hbl : Executor.btLookup bt c.target with _ | old
          · simp only [hmb, hbl] at h
            obtain ⟨newts, hnew⟩ := ih _ _ _ dv2 bt2 ord2 h
            exact ⟨c.target :: newts, by rw [hnew, List.append_assoc]; rfl⟩
          · simp only [hmb, hbl] at h
            exact ih _ _ ord dv2 bt2 ord2 h

/-- The loop keeps `branchTargets` and `bbOrder` in sync: a target has a
table entry exactly when it is listed in `bbOrder`. -/
theorem switchCasesLoop_domain (solver : Solver) (cs : List Expr)
    (cond : Expr) (dd : Nat) :
    ∀ (l : List Executor.SwitchCase) (dv : Expr) (bt : List (Nat × Expr))
      (ord : List Nat) (dv2 : Expr) (bt2 : List (Nat × Expr)) (ord2 : List Nat),
      Executor.switchCasesLoop solver cs cond dd l (dv, bt, ord) =
        some (dv2, bt2, ord2) →
      (∀ t, (Executor.btLookup bt t).isSome = true ↔ t ∈ ord) →
      ∀ t, (Executor.btLookup bt2 t).isSome = true ↔ t ∈ ord2 := by
  intro l
  induction l with
  | nil =>
    intro dv bt ord dv2 bt2 ord2 h hsync
    simp only [switchCasesLoop_nil, Option.some.injEq, Prod.mk.injEq] at h
    obtain ⟨_, h2, h3⟩ := h
    subst h2
    subst h3
    exact hsync
  | cons c rest ih =>
    intro dv bt ord dv2 bt2 ord2 h hsync
    rw [switchCasesLoop_cons] at h
    by_cases hdd : c.target = dd
    · rw [if_pos hdd] at h
      exact ih dv bt ord dv2 bt2 ord2 h hsync
    · rw [if_neg hdd] at h
      rcases hmb : solver.mayBeTrue cs (createEq cond (.const c.value)) with _ | b
      · simp only [hmb] at h
        exact Option.noConfusion h
      · cases b
        · simp only [hmb] at h
          exact ih _ bt ord dv2 bt2 ord2 h hsync
        · rcases hbl : Executor.btLookup bt c.target with _ | old
          · simp only [hmb, hbl] at h
            refine ih _ _ _ dv2 bt2 ord2 h ?_
            intro t
            by_cases ht : t = c.target
            · subst ht
              rw [btLookup_append_single, hbl, if_pos rfl]
              simp
            · rw [btLookup_append_single]
              rcases hbt : Executor.btLookup bt t with _ | e
              · rw [if_neg ht]
                have hno : ¬ t ∈ ord := by
                  intro hmem
                  have h5 := (hsync t).mpr hmem
                  rw [hbt] at h5
                  exact absurd h5 (by simp)
                simp only [Option.isSome_none, Bool.false_eq_true, false_iff,
                  List.mem_append, List.mem_singleton]
                intro hx
                rcases hx with hx | hx
                · exact hno hx
                · exact ht hx
              · have hyes : t ∈ ord := by
                  have h5 := (hsync t)
                  rw [hbt] at h5
                  exact h5.mp (by simp)
                simp only [Option.isSome_some, eq_self_iff_true, true_iff,
                  List.mem_append, List.mem_singleton]
                exact Or.inl hyes
          · simp only [hmb, hbl] at h
            refine ih _ _ ord dv2 bt2 ord2 h ?_
            intro t
            by_cases ht : t = c.target
            · have hmem : c.target ∈ ord := by
                have := hsync c.target
                rw [hbl] at this
                simpa using this
              rw [ht, btLookup_update_self bt c.target _ (by rw [hbl]; rfl)]
              simpa using hmem
            · rw [btLookup_update_ne bt c.target _ t ht]
              exact hsync t

/-- With a non-constant condition the loop only stores non-constant
predicates (an existing non-constant entry stays non-constant when a new
disjunct is or-ed in). -/
theorem switchCasesLoop_not_const (solver : Solver) (cs : List Expr)
    (cond : Expr) (dd : Nat) (hcond : cond.isConst = false) :
    ∀ (l : List Executor.SwitchCase) (dv : Expr) (bt : List (Nat × Expr))
      (ord : List Nat) (dv2 : Expr) (bt2 : List (Nat × Expr)) (ord2 : List Nat),
      Executor.switchCasesLoop solver cs cond dd l (dv, bt, ord) =
        some (dv2, bt2, ord2) →
      (∀ t e, Executor.btLookup bt t = some e → e.isConst = false) →
      ∀ t e, Executor.btLookup bt2 t = some e → e.isConst = false := by
  intro l
  induction l with
  | nil =>
    intro dv bt ord dv2 bt2 ord2 h hbase
    simp only [switchCasesLoop_nil, Option.some.injEq, Prod.mk.injEq] at h
    obtain ⟨_, h2, _⟩ := h
    subst h2
    exact hbase
  | cons c rest ih =>
    intro dv bt ord dv2 bt2 ord2 h hbase
    rw [switchCasesLoop_cons] at h
    by_cases hdd : c.target = dd
    · rw [if_pos hdd] at h
      exact ih dv bt ord dv2 bt2 ord2 h hbase
    · rw [if_neg hdd] at h
      rcases hmb : solver.mayBeTrue cs (createEq cond (.const c.value)) with _ | b
      · simp only [hmb] at h
        exact Option.noConfusion h
      · cases b
        · simp only [hmb] at h
          exact ih _ bt ord dv2 bt2 ord2 h hbase
        · rcases hbl : Executor.btLookup bt c.target with _ | old
          · simp only [hmb, hbl] at h
            refine ih _ _ _ dv2 bt2 ord2 h ?_
            intro t e he
            by_cases ht : t = c.target
            · subst ht
              rw [btLookup_append_single, hbl, if_pos rfl] at he
              have he2 : e = createOr (createEq cond (.const c.value))
                  (.const 0) := (Option.some.inj he).symm
              rw [he2]
              exact createOr_const_zero_not_const _
                (createEq_not_const_left cond _ hcond)
            · rw [btLookup_append_single] at he
              rcases hbt : Executor.btLookup bt t with _ | e0
              · rw [hbt, if_neg ht] at he
                cases he
              · rw [hbt] at he
                have he2 : e = e0 := (Option.some.inj he).symm
                rw [he2]
                exact hbase t e0 hbt
          · simp only [hmb, hbl] at h
            refine ih _ _ ord dv2 bt2 ord2 h ?_
            intro t e he
            by_cases ht : t = c.target
            · subst ht
              rw [btLookup_update_self bt c.target _ (by rw [hbl]; rfl)] at he
              have he2 : e = createOr (createEq cond (.const c.value)) old :=
                (Option.some.inj he).symm
              rw [he2]
              exact createOr_not_const _ _
                (createEq_not_const_left cond _ hcond)
                (hbase c.target old hbl)
            · rw [btLookup_update_ne bt c.target _ t ht] at he
              exact hbase t e he

theorem branch_constraints (s : ExecutionState) :
    s.branch.1.constraints = s.constraints ∧
    s.branch.2.constraints = s.constraints := ⟨rfl, rfl⟩

theorem branchClones_zero (rng : List Nat)
    (acc : List ExecutionState × List ExecutionState) :
    Executor.branchClones rng 0 acc = acc := rfl

theorem branchClones_succ (rng : List Nat) (k : Nat)
    (result added : List ExecutionState) :
    Executor.branchClones rng (k + 1) (result, added) =
      Executor.branchClones rng.tail k
        (result.set (rng.headD 0 % result.length)
            ((result.getD (rng.headD 0 % result.length) default).branch.1)
          ++ [(result.getD (rng.headD 0 % result.length) default).branch.2],
         added ++
          [(result.getD (rng.headD 0 % result.length) default).branch.2]) := rfl

/-- The clone loop of `Executor::branch` adds exactly `k` sibling states
and preserves the constraint vector of every result (cloning copies it). -/
theorem branchClones_spec (cs0 : List Expr) :
    ∀ (k : Nat) (rng : List Nat) (result added : List ExecutionState),
      0 < result.length →
      (∀ st ∈ result, st.constraints = cs0) →
      (∀ st ∈ added, st.constraints = cs0) →
      ((Executor.branchClones rng k (result, added)).1.length =
          result.length + k ∧
        (Executor.branchClones rng k (result, added)).2.length =
          added.length + k ∧
        (∀ st ∈ (Executor.branchClones rng k (result, added)).1,
          st.constraints = cs0) ∧
        (∀ st ∈ (Executor.branchClones rng k (result, added)).2,
          st.constraints = cs0)) := by
  intro k
  induction k with
  | zero =>
    intro rng result added hpos hres hadd
    rw [branchClones_zero]
    exact ⟨by simp, by simp, hres, hadd⟩
  | succ k ihk =>
    intro rng result added hpos hres hadd
    rw [branchClones_succ]
    have hidxlt : rng.headD 0 % result.length < result.length :=
      Nat.mod_lt _ hpos
    have hescs : (result.getD (rng.headD 0 % result.length)
        default).constraints = cs0 :=
      hres _ (listGetD_mem result _ default hidxlt)
    have hres2 : ∀ st ∈ result.set (rng.headD 0 % result.length)
          ((result.getD (rng.headD 0 % result.length) default).branch.1)
        ++ [(result.getD (rng.headD 0 % result.length) default).branch.2],
        st.constraints = cs0 := by
      intro st hst
      rcases List.mem_append.mp hst with h1 | h1
      · rcases List.mem_or_eq_of_mem_set h1 with h2 | h2
        · exact hres st h2
        · rw [h2, (branch_constraints _).1]
          exact hescs
      · rw [List.mem_singleton.mp h1, (branch_constraints _).2]
        exact hescs
    have hadd2 : ∀ st ∈ added ++
        [(result.getD (rng.headD 0 % result.length) default).branch.2],
        st.constraints = cs0 := by
      intro st hst
      rcases List.mem_append.mp hst with h1 | h1
      · exact hadd st h1
      · rw [List.mem_singleton.mp h1, (branch_constraints _).2]
        exact hescs
    obtain ⟨l1, l2, m1, m2⟩ := ihk rng.tail _ _ (by simp) hres2 hadd2
    refine ⟨?_, ?_, m1, m2⟩
    · rw [l1]
      simp only [List.length_append, List.length_set, List.length_singleton]
      omega
    · rw [l2]
      simp only [List.length_append, List.length_singleton]
      omega

theorem constrainResults_cons (st : ExecutionState)
    (rs : List (Option ExecutionState)) (c : Expr) (cs : List Expr) :
    Executor.constrainResults (some st :: rs) (c :: cs) =
      match Executor.addConstraint st c with
      | none => none
      | some st2 =>
        (Executor.constrainResults rs cs).map (fun l => some st2 :: l) := rfl

/-- Constraining a row of all-live states with non-constant conditions
succeeds and appends the i-th condition to the i-th state. -/
theorem constrainResults_allsome :
    ∀ (rs : List ExecutionState) (cs : List Expr),
      rs.length = cs.length →
      (∀ c ∈ cs, c.isConst = false) →
      Executor.constrainResults (rs.map some) cs =
        some ((rs.zip cs).map (fun q => some (q.1.addConstraint q.2))) := by
  intro rs
  induction rs with
  | nil =>
    intro cs hlen _
    have hcs : cs = [] := by
      cases cs
      · rfl
      · simp at hlen
    subst hcs
    rfl
  | cons r rs ih =>
    intro cs hlen hnc
    cases cs with
    | nil => simp at hlen
    | cons c cs2 =>
      have hlen2 : rs.length = cs2.length := by simpa using hlen
      have hnc2 : ∀ x ∈ cs2, x.isConst = false :=
        fun x hx => hnc x (List.mem_cons_of_mem c hx)
      have hc : c.isConst = false := hnc c (List.mem_cons_self c cs2)
      rw [List.map_cons, constrainResults_cons]
      simp only [addConstraint_not_const r c hc]
      rw [ih cs2 hlen2 hnc2]
      simp [List.zip_cons_cons]

/-- `Executor::branch` off the max-forks path: the row keeps one output
per condition, in order, each the parent (or a clone with the parent's
constraints) constrained by its condition, and `N - 1` states are added. -/
theorem branchN_normal (cfg : Executor.ForkConfig) (state : ExecutionState)
    (conditions : List Expr) (rng : List Nat) (seedKeep : Nat → Bool)
    (hmf : cfg.maxForksReached = false) (hseed : cfg.isSeeding = false)
    (hne : conditions ≠ []) (hnc : ∀ c ∈ conditions, c.isConst = false) :
    ∃ row added : List ExecutionState,
      Executor.branchN cfg state conditions rng seedKeep =
        some ((row.zip conditions).map
          (fun q => some (q.1.addConstraint q.2)), added) ∧
      row.length = conditions.length ∧
      added.length = conditions.length - 1 ∧
      (∀ st ∈ row, st.constraints = state.constraints) ∧
      (∀ st ∈ added, st.constraints = state.constraints) := by
  have hlen : 0 < conditions.length := List.length_pos.mpr hne
  obtain ⟨l1, l2, m1, m2⟩ := branchClones_spec state.constraints
    (conditions.length - 1) rng [state] [] (by simp)
    (by
      intro st hst
      rw [List.mem_singleton.mp hst])
    (by intro st hst; simp at hst)
  have hrowlen : (Executor.branchClones rng (conditions.length - 1)
      ([state], [])).1.length = conditions.length := by
    rw [l1]
    simp only [List.length_singleton]
    omega
  refine ⟨(Executor.branchClones rng (conditions.length - 1) ([state], [])).1,
    (Executor.branchClones rng (conditions.length - 1) ([state], [])).2,
    ?_, hrowlen, by rw [l2]; simp, m1, m2⟩
  unfold Executor.branchN
  rw [if_neg (by omega), hmf]
  simp only [Bool.false_eq_true, if_false, hseed, false_and]
  rw [constrainResults_allsome _ conditions hrowlen hnc]
  rfl

theorem listGetD_map {α β : Type} (f : α → β) :
    ∀ (l : List α) (k : Nat) (d : β) (d0 : α), k < l.length →
      (l.map f).getD k d = f (l.getD k d0) := by
  intro l
  induction l with
  | nil => intro k d d0 hk; exact absurd hk (by simp)
  | cons a l ih =>
    intro k d d0 hk
    cases k with
    | zero => rfl
    | succ k => exact ih k d d0 (by simpa using hk)

theorem listGetD_zip {α β : Type} :
    ∀ (l1 : List α) (l2 : List β) (k : Nat) (d1 : α) (d2 : β),
      k < l1.length → k < l2.length →
      (l1.zip l2).getD k (d1, d2) = (l1.getD k d1, l2.getD k d2) := by
  intro l1
  induction l1 with
  | nil => intro l2 k d1 d2 hk _; exact absurd hk (by simp)
  | cons a l1 ih =>
    intro l2 k d1 d2 hk1 hk2
    cases l2 with
    | nil => exact absurd hk2 (by simp)
    | cons b l2 =>
      cases k with
      | zero => rfl
      | succ k =>
        exact ih l2 k d1 d2 (by simpa using hk1) (by simpa using hk2)

/-- Assembling the n-way branch over a final target table: the row has one
slot per `bbOrder` entry, in order, each surviving and constrained by its
target's predicate and transferred to its target block. -/
theorem nwaySlots_spec (cfg : Executor.ForkConfig) (state : ExecutionState)
    (rng : List Nat) (seedKeep : Nat → Bool) (btF : List (Nat × Expr))
    (ordF : List Nat) (hne2 : ordF ≠ [])
    (hBsome : ∀ t ∈ ordF, ∃ e, Executor.btLookup btF t = some e ∧
      e.isConst = false)
    (hmf : cfg.maxForksReached = false) (hseed : cfg.isSeeding = false) :
    ∃ q : List (Option ExecutionState) × List ExecutionState,
      Executor.branchN cfg state
        (ordF.map (fun t => (Executor.btLookup btF t).getD (.const 0)))
        rng seedKeep = some q ∧
      ((ordF.zip q.1).map
        (fun e => (e.1, e.2.map (Executor.transferToBasicBlock e.1)))).length =
          ordF.length ∧
      q.2.length = ordF.length - 1 ∧
      (∀ k, k < ordF.length →
        (((ordF.zip q.1).map
          (fun e => (e.1, e.2.map (Executor.transferToBasicBlock e.1)))).getD k
            (0, none)).1 = ordF.getD k 0 ∧
        ∃ st, (((ordF.zip q.1).map
          (fun e => (e.1, e.2.map (Executor.transferToBasicBlock e.1)))).getD k
            (0, none)).2 = some st ∧
          st.block = ordF.getD k 0 ∧
          st.constraints = state.constraints ++
            [(Executor.btLookup btF (ordF.getD k 0)).getD (.const 0)]) := by
  have hcnd_nc : ∀ c ∈ ordF.map (fun t => (Executor.btLookup btF t).getD
      (.const 0)), c.isConst = false := by
    intro c hc
    obtain ⟨t, ht, hct⟩ := List.mem_map.mp hc
    obtain ⟨e, he, henc⟩ := hBsome t ht
    rw [← hct, he]
    simpa using henc
  have hcnd_ne : ordF.map (fun t => (Executor.btLookup btF t).getD
      (.const 0)) ≠ [] := by
    intro h0
    exact hne2 (List.map_eq_nil.mp h0)
  obtain ⟨row, added, hbneq, hrowlen, haddlen, hrowcs, _⟩ :=
    branchN_normal cfg state _ rng seedKeep hmf hseed hcnd_ne hcnd_nc
  have hclen : (ordF.map (fun t => (Executor.btLookup btF t).getD
      (.const 0))).length = ordF.length := List.length_map _ _
  rw [hclen] at hrowlen haddlen
  refine ⟨((row.zip (ordF.map (fun t => (Executor.btLookup btF t).getD
      (.const 0)))).map (fun p => some (p.1.addConstraint p.2)), added),
    hbneq, ?_, ?_, ?_⟩
  · simp only [List.length_map, List.length_zip, hrowlen, hclen]
    omega
  · exact haddlen
  · intro k hk
    have hkc : k < (ordF.map (fun t => (Executor.btLookup btF t).getD
        (.const 0))).length := by rw [hclen]; exact hk
    have hkr : k < row.length := by rw [hrowlen]; exact hk
    have hkzip : k < (row.zip (ordF.map (fun t => (Executor.btLookup btF t).getD
        (.const 0)))).length := by
      simp only [List.length_zip, hrowlen, hclen]
      omega
    have hkq : k < ((row.zip (ordF.map (fun t => (Executor.btLookup btF t).getD
        (.const 0)))).map (fun p => some (p.1.addConstraint p.2))).length := by
      rw [List.length_map]
      exact hkzip
    have hkout : k < (ordF.zip ((row.zip (ordF.map
        (fun t => (Executor.btLookup btF t).getD (.const 0)))).map
        (fun p => some (p.1.addConstraint p.2)))).length := by
      simp only [List.length_zip, List.length_map]
      omega
    have h1 : ((ordF.zip ((row.zip (ordF.map
        (fun t => (Executor.btLookup btF t).getD (.const 0)))).map
          (fun p => some (p.1.addConstraint p.2)))).map
        (fun e => (e.1, e.2.map (Executor.transferToBasicBlock e.1)))).getD k
          (0, none) =
        (ordF.getD k 0, some (Executor.transferToBasicBlock (ordF.getD k 0)
          ((row.getD k default).addConstraint
            ((Executor.btLookup btF (ordF.getD k 0)).getD (.const 0))))) := by
      rw [listGetD_map (fun e : Nat × Option ExecutionState =>
        (e.1, e.2.map (Executor.transferToBasicBlock e.1))) _ k (0, none)
        (0, none) hkout]
      rw [listGetD_zip ordF _ k 0 none hk hkq]
      rw [listGetD_map (fun p : ExecutionState × Expr =>
        some (p.1.addConstraint p.2)) _ k none (default, Expr.const 0) hkzip]
      rw [listGetD_zip row _ k default (Expr.const 0) hkr hkc]
      rw [listGetD_map (fun t => (Executor.btLookup btF t).getD (.const 0))
        ordF k (Expr.const 0) 0 hk]
      rfl
    constructor
    · rw [h1]
    · refine ⟨Executor.transferToBasicBlock (ordF.getD k 0)
        ((row.getD k default).addConstraint
          ((Executor.btLookup btF (ordF.getD k 0)).getD (.const 0))),
        by rw [h1], rfl, ?_⟩
      have hcs : (row.getD k default).constraints = state.constraints :=
        hrowcs _ (listGetD_mem row k default hkr)
      show (row.getD k default).constraints ++ _ = state.constraints ++ _
      rw [hcs]

/-- C4: on a Switch whose condition stays symbolic after `toUnique`, the
handler (i) orders the case values deterministically — the expression
order is sorted by constant value and, for distinct case values, contains
exactly the cases; (ii) gives each listed non-default target a predicate
that holds exactly when some feasible case for that target matches (the
disjunction of the equality tests of the feasible case values sharing that
target), the default block never receiving a loop entry; (iii) computes
the default predicate as the conjunction of the negations of the match
tests of the cases not already going to the default block; and (iv)
performs one n-way branch whose i-th slot carries the i-th `bbOrder`
target together with a surviving state constrained by that target's
predicate and transferred to that target block, in order, with `N - 1`
added states.  `dv, bt, ord` name the loop outputs and `bt2, ord2` the
final table and order after the feasible-default insertion. -/
theorem switch_symbolic_nway_branch
    (cfg : Executor.ForkConfig) (solver : Solver) (state : ExecutionState)
    (cond0 condS : Expr) (cases : List Executor.SwitchCase)
    (defaultDest : Nat) (rng : List Nat) (seedKeep : Nat → Bool)
    (dv : Expr) (bt : List (Nat × Expr)) (ord : List Nat) (dres : Bool)
    (bt2 : List (Nat × Expr)) (ord2 : List Nat)
    (huniq : Executor.toUnique solver state.constraints cond0 = condS)
    (hnc : condS.isConst = false)
    (hmf : cfg.maxForksReached = false) (hseed : cfg.isSeeding = false)
    (hloop : Executor.switchCasesLoop solver state.constraints condS defaultDest
      (Executor.exprOrder cases) (.const 1, [], []) = some (dv, bt, ord))
    (hdv : solver.mayBeTrue state.constraints dv = some dres)
    (hdvnc : dres = true → dv.isConst = false)
    (hne : ord ≠ [] ∨ dres = true)
    (hbt2 : bt2 = if dres then bt ++ [(defaultDest, dv)] else bt)
    (hord2 : ord2 = if dres then ord ++ [defaultDest] else ord) :
    (List.Pairwise (fun a b => a.value < b.value) (Executor.exprOrder cases) ∧
      (List.Pairwise (fun a b => a.value ≠ b.value) cases →
        ∀ x, x ∈ Executor.exprOrder cases ↔ x ∈ cases)) ∧
    (Executor.btLookup bt defaultDest = none ∧
      ∀ t e, Executor.btLookup bt t = some e → ∀ σ,
        (e.holds σ ↔ feasibleAt solver state.constraints condS defaultDest t
          (Executor.exprOrder cases) σ)) ∧
    (∀ σ, dv.holds σ ↔ ∀ c ∈ Executor.exprOrder cases,
      c.target ≠ defaultDest → ¬ (createEq condS (.const c.value)).holds σ) ∧
    (∃ slots added,
      Executor.executeSwitch cfg solver state cond0 cases defaultDest rng
        seedKeep = .nway slots added ∧
      slots.length = ord2.length ∧
      added.length = ord2.length - 1 ∧
      ∀ k, k < slots.length →
        (slots.getD k (0, none)).1 = ord2.getD k 0 ∧
        ∃ st, (slots.getD k (0, none)).2 = some st ∧
          st.block = ord2.getD k 0 ∧
          st.constraints = state.constraints ++
            [(Executor.btLookup bt2 (ord2.getD k 0)).getD (.const 0)]) := by
  have hsem2 := switchCasesLoop_targets_sem solver state.constraints condS
    defaultDest (Executor.exprOrder cases) (.const 1) [] [] dv bt ord hloop
  have hdd_none : Executor.btLookup bt defaultDest = none := by
    refine (hsem2.2 defaultDest rfl).1 ?_
    rintro ⟨c, _, hcf⟩
    exact hcf.2.1 rfl
  have hbtsem : ∀ t e, Executor.btLookup bt t = some e →
      ∀ σ, (e.holds σ ↔ feasibleAt solver state.constraints condS defaultDest t
        (Executor.exprOrder cases) σ) := by
    intro t e he σ
    by_cases hf : hasFeasible solver state.constraints condS defaultDest t
      (Executor.exprOrder cases)
    · obtain ⟨e2, he2, hsem⟩ := (hsem2.2 t rfl).2 hf
      have hee : e = e2 := Option.some.inj (he.symm.trans he2)
      rw [hee]
      exact hsem σ
    · rw [(hsem2.2 t rfl).1 hf] at he
      cases he
  have hdom := switchCasesLoop_domain solver state.constraints condS defaultDest
    (Executor.exprOrder cases) (.const 1) [] [] dv bt ord hloop
    (by intro t; simp [Executor.btLookup])
  have hbtnc := switchCasesLoop_not_const solver state.constraints condS
    defaultDest hnc (Executor.exprOrder cases) (.const 1) [] [] dv bt ord hloop
    (by intro t e he; cases he)
  have hdefsem : ∀ σ, dv.holds σ ↔
      ∀ c ∈ Executor.exprOrder cases, c.target ≠ defaultDest →
        ¬ (createEq condS (.const c.value)).holds σ := by
    intro σ
    rw [switchCasesLoop_default_sem solver state.constraints condS defaultDest
      (Executor.exprOrder cases) (.const 1) [] [] dv bt ord hloop σ]
    exact and_iff_right (by simp [Expr.holds, Expr.evalN])
  have hred : Executor.executeSwitch cfg solver state cond0 cases defaultDest
      rng seedKeep = Executor.executeSwitchSymbolic cfg solver state condS
      cases defaultDest rng seedKeep := by
    unfold Executor.executeSwitch
    rw [huniq]
    cases condS
    case const c => simp [Expr.isConst] at hnc
    all_goals rfl
  refine ⟨⟨exprOrder_sorted cases, fun hd x => exprOrder_mem cases hd x⟩,
    ⟨hdd_none, hbtsem⟩, hdefsem, ?_⟩
  rcases Bool.eq_false_or_eq_true dres with hd | hd
  case inr =>
    subst hd
    rw [if_neg (by simp)] at hbt2
    rw [if_neg (by simp)] at hord2
    rw [hbt2, hord2]
    have hne2 : ord ≠ [] := by
      rcases hne with h | h
      · exact h
      · cases h
    have hBsome : ∀ t ∈ ord, ∃ e, Executor.btLookup bt t = some e ∧
        e.isConst = false := by
      intro t ht
      have h2 := (hdom t).mpr ht
      rcases hbt : Executor.btLookup bt t with _ | e
      · rw [hbt] at h2
        simp at h2
      · exact ⟨e, rfl, hbtnc t e hbt⟩
    obtain ⟨q, hq, hslen, halen, hpt⟩ := nwaySlots_spec cfg state rng seedKeep
      bt ord hne2 hBsome hmf hseed
    refine ⟨(ord.zip q.1).map
      (fun e => (e.1, e.2.map (Executor.transferToBasicBlock e.1))), q.2,
      ?_, hslen, halen, ?_⟩
    · rw [hred]
      unfold Executor.executeSwitchSymbolic
      simp only [hloop, hdv, Bool.false_eq_true, if_false, hq]
    · intro k hk
      exact hpt k (hslen ▸ hk)
  case inl =>
    subst hd
    rw [if_pos rfl] at hbt2
    rw [if_pos rfl] at hord2
    rw [hbt2, hord2]
    have hne2 : ord ++ [defaultDest] ≠ [] := by simp
    have hBsome : ∀ t ∈ ord ++ [defaultDest], ∃ e,
        Executor.btLookup (bt ++ [(defaultDest, dv)]) t = some e ∧
        e.isConst = false := by
      intro t ht
      rcases List.mem_append.mp ht with h1 | h1
      · have h2 := (hdom t).mpr h1
        rcases hbt : Executor.btLookup bt t with _ | e
        · rw [hbt] at h2
          simp at h2
        · refine ⟨e, ?_, hbtnc t e hbt⟩
          rw [btLookup_append_single, hbt]
      · rw [List.mem_singleton.mp h1]
        refine ⟨dv, ?_, hdvnc rfl⟩
        rw [btLookup_append_single, hdd_none, if_pos rfl]
    obtain ⟨q, hq, hslen, halen, hpt⟩ := nwaySlots_spec cfg state rng seedKeep
      (bt ++ [(defaultDest, dv)]) (ord ++ [defaultDest]) hne2 hBsome hmf hseed
    refine ⟨((ord ++ [defaultDest]).zip q.1).map
      (fun e => (e.1, e.2.map (Executor.transferToBasicBlock e.1))), q.2,
      ?_, hslen, halen, ?_⟩
    · rw [hred]
      unfold Executor.executeSwitchSymbolic
      simp only [hloop, hdv, hdd_none, if_true, hq]
    · intro k hk
      exact hpt k (hslen ▸ hk)

/-- A solver for the switch witness: every may-be-true query succeeds with
true, and `getValue` fails so `toUnique` leaves expressions unchanged. -/
def switchSampleSolver : Solver :=
  ⟨fun _ _ => none, fun _ _ => some true, fun _ _ => none, fun _ _ => none⟩

/-- Witness for C4: one case (value 5 → block 2) with default block 1 on a
symbolic condition; the handler performs a single two-way branch over the
blocks `[2, 1]` with one added state. -/
theorem switch_symbolic_nway_branch_witness :
    Expr.isConst (.var 0) = false ∧
    (∃ slots added,
      Executor.executeSwitch plainForkConfig switchSampleSolver sampleState
        (.var 0) [⟨5, 2⟩] 1 [] (fun _ => true) = .nway slots added ∧
      slots.length = 2 ∧ added.length = 1) := by
  have h := switch_symbolic_nway_branch plainForkConfig switchSampleSolver
    sampleState (.var 0) (.var 0) [⟨5, 2⟩] 1 [] (fun _ => true)
    (.isZeroOf (.eq (.var 0) (.const 5))) [(2, .eq (.var 0) (.const 5))] [2]
    true
    [(2, .eq (.var 0) (.const 5)), (1, .isZeroOf (.eq (.var 0) (.const 5)))]
    [2, 1]
    rfl rfl rfl rfl rfl rfl (fun _ => rfl) (Or.inr rfl) rfl rfl
  obtain ⟨_, _, _, slots, added, heq, hslen, halen, _⟩ := h
  exact ⟨rfl, slots, added, heq, by simpa using hslen, by simpa using halen⟩

end KleeCore
